import Mathlib

/-!
Verification of the cixtor/readability content-extraction engine
(files readability.go and document.go).

Embedding conventions.

The DOM tree produced by the external HTML5 parser is the inductive
type HNode with element, text and comment nodes.  The parser
normalizes tag names to lower case and never emits duplicate
attribute keys on one node; theorems that depend on those facts take
them as explicit hypotheses or use concrete parser-shaped trees.

Go strings are modelled as lists of characters (GoStr); the Go len of
a string is modelled as the character count.  Go float64 values
(scores, densities) are modelled as rationals.  Mutation is modelled
by tree-to-tree functions: each embedded function is a direct
translation of the Go function of the same name, and a comment on the
definition records the source location and any reasoning used to turn
in-place pointer mutation into a pure function.

The external collaborators (the net/url library inside toAbsoluteURI,
and the metadata mining plus the per-attempt scoring passes of
grabArticle, which the claims under verification treat as opaque) are
modelled as parameters: a UResolver record for net/url, and a
PipelineFns record providing the metadata record and the per-attempt
article constructor.  Every claim theorem that quantifies over those
parameters therefore covers every behaviour the real collaborators
could exhibit.
-/

/-! ## Go string primitives -/

/-- Go strings as character lists. -/
abbrev GoStr := List Char

/-- Characters matched by the character class backslash-s of the Go
regexp package: tab, newline, form feed, carriage return, space. -/
def wsR (c : Char) : Bool :=
  c = ' ' ∨ c = '\t' ∨ c = '\n' ∨ c = '\x0c' ∨ c = '\r'

/-- Model of unicode.IsSpace used by strings.TrimSpace and
strings.Fields.  Beyond the regexp class it also accepts vertical tab,
next line and no-break space; rarer Unicode space code points are not
enumerated because no theorem below depends on them, only on the fact
that wsR implies wsT. -/
def wsT (c : Char) : Bool :=
  wsR c ∨ c = '\x0b' ∨ c = '\x85' ∨ c = '\xa0'

/-- ASCII lower casing, modelling the case folding performed by the
case-insensitive flag of the Go regexps on the ASCII patterns used by
the engine. -/
def lowerC (c : Char) : Char :=
  if 'A' ≤ c ∧ c ≤ 'Z' then Char.ofNat (c.toNat + 32) else c

/-- Lower case a whole string. -/
def lowerL (l : GoStr) : GoStr := l.map lowerC

/-- Model of strings.HasPrefix. -/
def startsWithL : GoStr → GoStr → Bool
  | _, [] => true
  | [], _ :: _ => false
  | c :: cs, p :: ps => c = p ∧ startsWithL cs ps

/-- Model of strings.Contains. -/
def containsL : GoStr → GoStr → Bool
  | [], pat => pat.isEmpty
  | c :: rest, pat => startsWithL (c :: rest) pat || containsL rest pat

/-- Case-insensitive containment, modelling an unanchored
case-insensitive regexp match of a literal word. -/
def containsCI (l pat : GoStr) : Bool := containsL (lowerL l) (lowerL pat)

/-- Case-insensitive suffix test. -/
def endsWithCI (l pat : GoStr) : Bool := startsWithL (lowerL l).reverse (lowerL pat).reverse

/-- State of the run-collapsing scanner: outside a whitespace run, one
pending whitespace character seen, or inside a run of two or more. -/
inductive CState where
  | clear
  | pend (c : Char)
  | run

/-- Scanner for rxNormalize (readability.go line 23): replace every
run of two or more regexp-whitespace characters by a single space; a
lone whitespace character is kept as it is. -/
def collapseAux : CState → GoStr → GoStr
  | .clear, [] => []
  | .pend p, [] => [p]
  | .run, [] => [' ']
  | .clear, c :: rest =>
      if wsR c then collapseAux (.pend c) rest else c :: collapseAux .clear rest
  | .pend p, c :: rest =>
      if wsR c then collapseAux .run rest else p :: c :: collapseAux .clear rest
  | .run, c :: rest =>
      if wsR c then collapseAux .run rest else ' ' :: c :: collapseAux .clear rest

/-- Model of rxNormalize.ReplaceAllString(s, a single space). -/
def collapse (l : GoStr) : GoStr := collapseAux .clear l

/-- Drop leading Unicode whitespace. -/
def trimLeftT (l : GoStr) : GoStr := l.dropWhile wsT

/-- Drop trailing Unicode whitespace. -/
def trimRightT (l : GoStr) : GoStr := (l.reverse.dropWhile wsT).reverse

/-- Model of strings.TrimSpace. -/
def goTrimSpace (l : GoStr) : GoStr := trimRightT (trimLeftT l)

/-- Accumulator pass of goFields. -/
def goFieldsAux : GoStr → GoStr → List GoStr
  | acc, [] => if acc.isEmpty then [] else [acc.reverse]
  | acc, c :: rest =>
      if wsT c then
        if acc.isEmpty then goFieldsAux [] rest else acc.reverse :: goFieldsAux [] rest
      else goFieldsAux (c :: acc) rest

/-- Model of strings.Fields: maximal runs of non-whitespace characters. -/
def goFields (l : GoStr) : List GoStr := goFieldsAux [] l

/-- Model of strings.Count for a one-character pattern, the only shape
the engine uses (counting commas). -/
def countChar (l : GoStr) (c : Char) : Nat := l.countP (fun d => d = c)

/-- Model of strings.Join with a single-space separator. -/
def joinSpace : List GoStr → GoStr
  | [] => []
  | [w] => w
  | w :: rest => w ++ ' ' :: joinSpace rest

/-- Length of the collapsed form of a string, counted directly: every
character counts one except a regexp-whitespace character that is
immediately followed by another one (only the last character of each
whitespace run counts).  Proved equal to the length of collapse. -/
def mu : GoStr → Nat
  | [] => 0
  | [_] => 1
  | c :: d :: rest => (if wsR c ∧ wsR d then 0 else 1) + mu (d :: rest)

/-! ## The DOM model -/

/-- A parsed HTML node: an element with tag, attributes and children,
a text node, or a comment node.  This models the golang.org/x/net/html
Node values the engine manipulates; Document and Doctype kinds do not
occur below the html element, so the embedding takes the html element
itself as the root (it is counted by getElementsByTagName in Go just
as it is here). -/
inductive HNode where
  | elem (tag : String) (attrs : List (String × GoStr)) (children : List HNode)
  | text (s : GoStr)
  | comment (s : GoStr)

/-- Whether the node is an element node. -/
def isElem : HNode → Bool
  | .elem _ _ _ => true
  | _ => false

/-- Model of tagName (document.go): the tag for elements, otherwise
the empty string. -/
def tagName : HNode → String
  | .elem t _ _ => t
  | _ => ""

/-- Attribute list of a node (elements only). -/
def attrsOf : HNode → List (String × GoStr)
  | .elem _ a _ => a
  | _ => []

/-- Child list of a node. -/
def childNodesOf : HNode → List HNode
  | .elem _ _ cs => cs
  | _ => []

/-- Model of getAttribute (document.go): value of the first attribute
with the given name, empty when absent. -/
def getAttribute : List (String × GoStr) → String → GoStr
  | [], _ => []
  | (k, v) :: rest, name => if k = name then v else getAttribute rest name

/-- getAttribute on a node. -/
def getAttributeN (n : HNode) (name : String) : GoStr := getAttribute (attrsOf n) name

/-- Model of setAttribute (source helper): replace the value of the
first attribute with the given name, or append a new attribute. -/
def setAttribute : List (String × GoStr) → String → GoStr → List (String × GoStr)
  | [], name, v => [(name, v)]
  | (k, w) :: rest, name, v =>
      if k = name then (k, v) :: rest else (k, w) :: setAttribute rest name v

/-- Model of removeAttribute (source helper): delete the first
attribute with the given name, if any. -/
def removeAttribute : List (String × GoStr) → String → List (String × GoStr)
  | [], _ => []
  | (k, w) :: rest, name => if k = name then rest else (k, w) :: removeAttribute rest name

/-- Model of hasAttribute (source helper). -/
def hasAttribute : List (String × GoStr) → String → Bool
  | [], _ => false
  | (k, _) :: rest, name => k = name || hasAttribute rest name

/-- Model of children (source helper): element children only. -/
def childrenOf (n : HNode) : List HNode := (childNodesOf n).filter isElem

/-- Model of firstElementChild (source helper). -/
def firstElementChild (n : HNode) : Option HNode := (childrenOf n).head?

mutual
/-- Model of getElementsByTagName (document.go): depth-first preorder
collection over the subtree rooted at the node, the node itself
included, of elements whose tag equals the argument, an asterisk
matching every element.  The Go helper invokes its collector on the
argument node itself, so the root is part of the result when it
matches. -/
def getElementsByTagName : HNode → String → List HNode
  | .elem t a cs, tag =>
      (if tag = "*" ∨ t = tag then [HNode.elem t a cs] else []) ++ getElementsByTagNameL cs tag
  | .text _, _ => []
  | .comment _, _ => []

/-- getElementsByTagName over a list of sibling subtrees, in order. -/
def getElementsByTagNameL : List HNode → String → List HNode
  | [], _ => []
  | c :: cs, tag => getElementsByTagName c tag ++ getElementsByTagNameL cs tag
end

mutual
/-- Model of textContent (document.go): concatenation of the data of
every descendant text node, in document order. -/
def textContentL : HNode → GoStr
  | .elem _ _ cs => textContentLs cs
  | .text s => s
  | .comment _ => []

/-- textContent over a list of sibling subtrees. -/
def textContentLs : List HNode → GoStr
  | [] => []
  | c :: cs => textContentL c ++ textContentLs cs
end

/-- Model of getInnerText with normalizeSpaces true (readability.go
line 1411): TrimSpace then rxNormalize. -/
def getInnerTextNorm (n : HNode) : GoStr := collapse (goTrimSpace (textContentL n))

/-- Character length of the normalized inner text, the quantity Go
computes as len of getInnerText with normalization. -/
def getInnerTextLen (n : HNode) : Nat := (getInnerTextNorm n).length

/-- Model of getCharCount (readability.go line 1422) for a
one-character pattern. -/
def getCharCount (n : HNode) (c : Char) : Nat := countChar (getInnerTextNorm n) c

/-- Model of className (document.go): class attribute trimmed and
whitespace-normalized. -/
def classNameOf (n : HNode) : GoStr := collapse (goTrimSpace (getAttributeN n "class"))

/-- Model of the id helper (document.go): id attribute trimmed. -/
def idValueOf (n : HNode) : GoStr := goTrimSpace (getAttributeN n "id")

/-! ## The regexp predicate library

Each Go regexp used by the embedded components is hand-compiled to an
equivalent executable predicate; the patterns are alternations of
literals (with a few anchored variants) matched case-insensitively
anywhere in the subject. -/

/-- Literal alternatives of rxPositive (readability.go line 20). -/
def positiveWords : List GoStr :=
  ["article".toList, "body".toList, "content".toList, "entry".toList, "hentry".toList,
   "h-entry".toList, "main".toList, "page".toList, "pagination".toList, "post".toList,
   "text".toList, "blog".toList, "story".toList]

/-- Model of rxPositive.MatchString. -/
def rxPositiveMatch (s : GoStr) : Bool := positiveWords.any (fun w => containsCI s w)

/-- Plain literal alternatives of rxNegative (readability.go line 21). -/
def negativeWords : List GoStr :=
  ["hidden".toList, "banner".toList, "combx".toList, "comment".toList, "com-".toList,
   "contact".toList, "foot".toList, "footer".toList, "footnote".toList, "gdpr".toList,
   "masthead".toList, "media".toList, "meta".toList, "outbrain".toList, "promo".toList,
   "related".toList, "scroll".toList, "share".toList, "shoutbox".toList, "sidebar".toList,
   "skyscraper".toList, "sponsor".toList, "shopping".toList, "tags".toList, "tool".toList,
   "widget".toList]

/-- Model of rxNegative.MatchString, including the four anchored
variants of the word hid. -/
def rxNegativeMatch (s : GoStr) : Bool :=
  negativeWords.any (fun w => containsCI s w) ||
    lowerL s = "hid".toList ||
    endsWithCI s " hid".toList ||
    containsCI s " hid ".toList ||
    startsWithL (lowerL s) "hid ".toList

/-- Host literals of rxVideos (readability.go line 24): the regexp is
two slashes, an optional www dot, then one of these hosts. -/
def videoHosts : List GoStr :=
  ["dailymotion.com".toList, "youtube.com".toList, "youtube-nocookie.com".toList,
   "player.vimeo.com".toList, "v.qq.com".toList, "archive.org".toList,
   "upload.wikimedia.org".toList, "player.twitch.tv".toList]

/-- Model of rxVideos.MatchString. -/
def rxVideosMatch (s : GoStr) : Bool :=
  videoHosts.any (fun h => containsCI s ("//".toList ++ h) || containsCI s ("//www.".toList ++ h))

/-! ## Flags and class weight -/

/-- The three relaxation flags (readability.go lines 94 to 98). -/
structure Flags where
  stripUnlikelys : Bool
  useWeightClasses : Bool
  cleanConditionally : Bool

/-- Number of set flags, the termination measure of the grab loop. -/
def Flags.countTrue (f : Flags) : Nat :=
  (if f.stripUnlikelys then 1 else 0) + (if f.useWeightClasses then 1 else 0) +
    (if f.cleanConditionally then 1 else 0)

/-- Model of getClassWeight (readability.go lines 1471 to 1501):
plus or minus 25 from the class and the id against the positive and
negative regexps, zero when the weight-class flag is cleared. -/
def getClassWeight (f : Flags) (n : HNode) : Int :=
  if ¬ f.useWeightClasses then 0
  else
    let wClass : Int :=
      if classNameOf n ≠ [] then
        (if rxNegativeMatch (classNameOf n) then -25 else 0) +
          (if rxPositiveMatch (classNameOf n) then 25 else 0)
      else 0
    let wID : Int :=
      if idValueOf n ≠ [] then
        (if rxNegativeMatch (idValueOf n) then -25 else 0) +
          (if rxPositiveMatch (idValueOf n) then 25 else 0)
      else 0
    wClass + wID

/-- Model of getLinkDensity (readability.go lines 1453 to 1467): the
summed normalized inner-text length of every collected anchor divided
by the normalized inner-text length of the element, zero when the
element text is empty.  The Go float64 arithmetic is modelled over the
rationals. -/
def getLinkDensity (e : HNode) : ℚ :=
  let textLength := getInnerTextLen e
  if textLength = 0 then 0
  else (((getElementsByTagName e "a").map getInnerTextLen).sum : ℚ) / (textLength : ℚ)

/-! ## Phrasing content and whitespace nodes -/

/-- The phrasingElems constant (readability.go lines 84 to 91). -/
def phrasingElems : List String :=
  ["abbr", "audio", "b", "bdo", "br", "button", "cite", "code", "data",
   "datalist", "dfn", "em", "embed", "i", "img", "input", "kbd", "label",
   "mark", "math", "meter", "noscript", "object", "output", "progress", "q",
   "ruby", "samp", "script", "select", "small", "span", "strong", "sub",
   "sup", "textarea", "time", "var", "wbr"]

mutual
/-- Model of isPhrasingContent (readability.go lines 1385 to 1398):
text nodes, the fixed phrasing tags, and a, del, ins elements all of
whose children are phrasing content. -/
def isPhrasingContent : HNode → Bool
  | .text _ => true
  | .comment _ => false
  | .elem t _ cs =>
      if phrasingElems.contains t then true
      else (t = "a" ∨ t = "del" ∨ t = "ins") ∧ allPhrasing cs

/-- everyNode of isPhrasingContent over a child list. -/
def allPhrasing : List HNode → Bool
  | [] => true
  | c :: cs => isPhrasingContent c && allPhrasing cs
end

/-- Model of isWhitespace (readability.go lines 1400 to 1406): a text
node whose trimmed content is empty, or a br element. -/
def isWhitespaceNode : HNode → Bool
  | .text s => goTrimSpace s = []
  | .elem t _ _ => t = "br"
  | .comment _ => false

/-! ## The br-to-p rewrite (prepDocument) -/

/-- Skip predicate of nextElement (readability.go lines 408 to 418): a
node is skipped when it is not an element and its text content matches
the whole-string whitespace regexp. -/
def brSkip (n : HNode) : Bool := !isElem n && (textContentL n).all wsR

/-- First non-skipped node of a sibling tail, as nextElement would
reach it. -/
def nextElementL (l : List HNode) : Option HNode := (l.dropWhile brSkip).head?

/-- Whether the forward walk from this tail reaches a br element, the
stop test of the child-hoisting loop of replaceBrs. -/
def isBrNextElem (l : List HNode) : Bool :=
  match nextElementL l with
  | some m => tagName m = "br"
  | none => false

/-- The br-chain scan of replaceBrs (readability.go lines 439 to 450)
on the sibling tail after the anchor br: whitespace nodes are skipped
in place, the walk stops at nil or at a node whose tagName equals the
upper-case literal BR, and every other node reached is removed from
the tree.  Returns the surviving tail and whether anything was
removed. -/
def brChain : List HNode → (List HNode × Bool)
  | [] => ([], false)
  | n :: rest =>
      if brSkip n then
        let t := brChain rest
        (n :: t.1, t.2)
      else if tagName n = "BR" then (n :: rest, false)
      else
        let t := brChain rest
        (t.1, true)

/-- The child-hoisting loop of replaceBrs (readability.go lines 459 to
478): successive siblings are moved into the new p until another br
chain starts or a non-phrasing node is reached.  Returns the hoisted
nodes and the remaining tail.  In Go the moves go through appendChild,
which clones a node that still has a parent; the clone is structurally
identical, so the pure model reuses the node value. -/
def hoistSplit : List HNode → (List HNode × List HNode)
  | [] => ([], [])
  | n :: rest =>
      if tagName n = "br" ∧ isBrNextElem rest then ([], n :: rest)
      else if ¬ isPhrasingContent n then ([], n :: rest)
      else
        let t := hoistSplit rest
        (n :: t.1, t.2)

/-- The trailing-whitespace strip applied to the children of the new p
(readability.go lines 480 to 482). -/
def stripTrailingWs (l : List HNode) : List HNode :=
  (l.reverse.dropWhile isWhitespaceNode).reverse

theorem brChain_fst_sizeOf_le : ∀ l : List HNode, sizeOf (brChain l).1 ≤ sizeOf l := by
  intro l
  induction l with
  | nil => simp [brChain]
  | cons n rest ih =>
      simp only [brChain]
      split
      · simp only [List.cons.sizeOf_spec]; omega
      · split
        · simp
        · simp only [List.cons.sizeOf_spec]; omega

theorem hoistSplit_snd_sizeOf_le : ∀ l : List HNode, sizeOf (hoistSplit l).2 ≤ sizeOf l := by
  intro l
  induction l with
  | nil => simp [hoistSplit]
  | cons n rest ih =>
      simp only [hoistSplit]
      split
      · simp
      · split
        · simp
        · simp only [List.cons.sizeOf_spec]; omega

/-- Model of replaceBrs (readability.go lines 428 to 489) over a
sibling list.  The Go code first collects every br of the subtree in
preorder and then mutates while iterating; the pure recursion below
produces the same tree because every mutation performed for one br is
confined to the sibling tail after that br (nodes there that are
removed, or cloned into the new p, are thereby detached before their
own turn comes, and processing a detached node is a no-op), while brs
inside earlier siblings have already been processed.  The returned
flag records whether a br of this list was replaced by a p, which
makes the parent subject to the upper-case P rename check
(readability.go lines 484 to 486). -/
def replaceBrsList : List HNode → (List HNode × Bool)
  | [] => ([], false)
  | n :: rest =>
      if tagName n = "br" then
        let t := brChain rest
        if t.2 then
          let hs := hoistSplit t.1
          let r := replaceBrsList hs.2
          ((HNode.elem "p" [] (stripTrailingWs hs.1)) :: r.1, true)
        else
          let r := replaceBrsList t.1
          (n :: r.1, r.2)
      else
        match n with
        | .elem tg a cs =>
            let c := replaceBrsList cs
            let r := replaceBrsList rest
            ((HNode.elem (if c.2 ∧ tg = "P" then "div" else tg) a c.1) :: r.1, r.2)
        | other =>
            let r := replaceBrsList rest
            (other :: r.1, r.2)
termination_by l => sizeOf l
decreasing_by
  · exact lt_of_le_of_lt (le_trans (hoistSplit_snd_sizeOf_le _) (brChain_fst_sizeOf_le _))
      (by simp only [List.cons.sizeOf_spec]; omega)
  · exact lt_of_le_of_lt (brChain_fst_sizeOf_le _)
      (by simp only [List.cons.sizeOf_spec]; omega)
  · simp only [List.cons.sizeOf_spec, HNode.elem.sizeOf_spec]
    omega
  · simp only [List.cons.sizeOf_spec]
    omega
  · simp only [List.cons.sizeOf_spec]
    omega

/-- Model of replaceBrs applied to a node (the body element in
prepDocument): its child list is rewritten and the upper-case P rename
is applied to the node itself when one of its direct br children was
replaced. -/
def replaceBrs : HNode → HNode
  | .elem t a cs =>
      let c := replaceBrsList cs
      HNode.elem (if c.2 ∧ t = "P" then "div" else t) a c.1
  | n => n

/-! ## Script stripping and document prep -/

mutual
/-- Removal of every element of one tag from the subtree of a node,
the root itself spared: removeNodes with a nil filter only removes
nodes that have a parent, which is every collected node except the
root of the traversal.  Iterating the pre-collected list backwards
and removing in place has the same net effect as this filter, because
removing a node removes its whole subtree. -/
def removeTagAll (tag : String) : HNode → HNode
  | .elem t a cs => .elem t a (removeTagAllL tag cs)
  | n => n

/-- removeTagAll over a sibling list; here matching nodes are dropped. -/
def removeTagAllL (tag : String) : List HNode → List HNode
  | [] => []
  | n :: rest =>
      if isElem n && tagName n = tag then removeTagAllL tag rest
      else removeTagAll tag n :: removeTagAllL tag rest
end

/-- Model of removeScripts (readability.go lines 1340 to 1343). -/
def removeScripts (doc : HNode) : HNode :=
  removeTagAll "noscript" (removeTagAll "script" doc)

mutual
/-- Application of replaceBrs to the first body element in document
order, as prepDocument does through getElementsByTagName. -/
def applyFirstBody : HNode → (HNode × Bool)
  | .elem t a cs =>
      if t = "body" then (replaceBrs (.elem t a cs), true)
      else
        let r := applyFirstBodyL cs
        (.elem t a r.1, r.2)
  | n => (n, false)

/-- applyFirstBody over a sibling list, stopping after the first hit. -/
def applyFirstBodyL : List HNode → (List HNode × Bool)
  | [] => ([], false)
  | n :: rest =>
      let r := applyFirstBody n
      if r.2 then (r.1 :: rest, true)
      else
        let rr := applyFirstBodyL rest
        (n :: rr.1, rr.2)
end

mutual
/-- Renaming of every element of one tag, modelling replaceNodeTags:
the list is collected before any rename, so nested occurrences are
all renamed. -/
def renameTagAll (fromTag toTag : String) : HNode → HNode
  | .elem t a cs =>
      .elem (if t = fromTag then toTag else t) a (renameTagAllL fromTag toTag cs)
  | n => n

/-- renameTagAll over a sibling list. -/
def renameTagAllL (fromTag toTag : String) : List HNode → List HNode
  | [] => []
  | n :: rest => renameTagAll fromTag toTag n :: renameTagAllL fromTag toTag rest
end

/-- Model of prepDocument (readability.go lines 393 to 403): remove
every style element, rewrite brs inside the first body, rename font
elements to the upper-case literal SPAN. -/
def prepDocument (doc : HNode) : HNode :=
  renameTagAll "font" "SPAN" (applyFirstBody (removeTagAll "style" doc)).1

/-! ## URL resolution and post-processing -/

/-- The slice of the net/url library that toAbsoluteURI consumes,
supplied as a parameter: whether the stored base URL is nil,
url.ParseRequestURI returning scheme and hostname on success,
url.Parse returning an opaque parsed reference, and
base.ResolveReference rendered back to a string.  net/url is an
external collaborator of the engine, so theorems quantify over every
resolver. -/
structure UResolver where
  isNil : Bool
  parseRequestURI : GoStr → Option (GoStr × GoStr)
  parseURL : GoStr → Option GoStr
  resolveRef : GoStr → GoStr

/-- The final resolution step of toAbsoluteURI: url.Parse, returning
the input on a parse error, otherwise resolve against the base. -/
def resolveStep (R : UResolver) (uri : GoStr) : GoStr :=
  match R.parseURL uri with
  | none => uri
  | some ref => R.resolveRef ref

/-- Model of toAbsoluteURI (document.go lines 199 to 222): empty or
nil-base inputs give the empty string, fragment-first inputs are
returned unchanged, inputs that reparse as absolute with a scheme and
a hostname are returned unchanged, otherwise the input is resolved
against the base. -/
def toAbsoluteURI (R : UResolver) (uri : GoStr) : GoStr :=
  if uri = [] ∨ R.isNil then []
  else if startsWithL uri "#".toList then uri
  else
    match R.parseRequestURI uri with
    | some sh => if sh.1 ≠ [] ∧ sh.2 ≠ [] then uri else resolveStep R uri
    | none => resolveStep R uri

/-- The hypotheses on the resolver under which post-processing is
well behaved: the base is not nil, and a string produced by
ResolveReference is nonempty, does not start with the javascript
scheme prefix, and is a fixed point of toAbsoluteURI (it reparses as
absolute).  net/url with the base URL Parse installs satisfies the
non-nil and nonempty parts, but not the javascript-free part on every
input: url.Parse lowercases schemes, so resolving a href with the
mixed-case scheme Javascript yields a javascript-prefixed string (see
cxResolver below for the resulting failure of idempotence). -/
def GoodResolver (R : UResolver) : Prop :=
  R.isNil = false ∧
    ∀ ref, R.resolveRef ref ≠ [] ∧
      startsWithL (R.resolveRef ref) "javascript:".toList = false ∧
      toAbsoluteURI R (R.resolveRef ref) = R.resolveRef ref

mutual
/-- Model of fixRelativeURIs (readability.go lines 1782 to 1828).
The Go code first rewrites every collected anchor, then every image
remaining in the mutated tree; a single recursive pass produces the
same tree: rewriting one anchor only touches its own attributes, or
replaces the whole anchor by a text node carrying its text content, in
which case the nodes below it (anchors or images) are detached before
their turn and processing them would be a no-op. -/
def fixNode (R : UResolver) : HNode → HNode
  | .elem t a cs =>
      if t = "a" then
        let href := getAttribute a "href"
        if href = [] then .elem t a (fixList R cs)
        else if startsWithL href "javascript:".toList then .text (textContentLs cs)
        else
          let newHref := toAbsoluteURI R href
          if newHref = [] then .elem t (removeAttribute a "href") (fixList R cs)
          else .elem t (setAttribute a "href" newHref) (fixList R cs)
      else if t = "img" then
        let src := getAttribute a "src"
        if src = [] then .elem t a (fixList R cs)
        else
          let newSrc := toAbsoluteURI R src
          if newSrc = [] then .elem t (removeAttribute a "src") (fixList R cs)
          else .elem t (setAttribute a "src" newSrc) (fixList R cs)
      else .elem t a (fixList R cs)
  | n => n

/-- fixRelativeURIs over a sibling list. -/
def fixList (R : UResolver) : List HNode → List HNode
  | [] => []
  | n :: rest => fixNode R n :: fixList R rest
end

mutual
/-- Model of cleanClasses (readability.go lines 1833 to 1852): keep
only the class fields listed in classesToPreserve, joined by single
spaces, removing the attribute when nothing remains; then recurse over
the element children. -/
def cleanClassesN (keep : List GoStr) : HNode → HNode
  | .elem t a cs =>
      let preserved := (goFields (collapse (goTrimSpace (getAttribute a "class")))).filter
        (fun w => keep.contains w)
      let a' := if preserved.isEmpty then removeAttribute a "class"
        else setAttribute a "class" (joinSpace preserved)
      .elem t a' (cleanClassesL keep cs)
  | n => n

/-- cleanClasses over a sibling list. -/
def cleanClassesL (keep : List GoStr) : List HNode → List HNode
  | [] => []
  | n :: rest => cleanClassesN keep n :: cleanClassesL keep rest
end

mutual
/-- Model of clearReadabilityAttr (readability.go lines 1855 to 1862):
remove the score attribute and then the table attribute on every
element of the subtree. -/
def clearReadAttrN : HNode → HNode
  | .elem t a cs =>
      .elem t (removeAttribute (removeAttribute a "data-readability-score")
        "data-readability-table") (clearReadAttrL cs)
  | n => n

/-- clearReadabilityAttr over a sibling list. -/
def clearReadAttrL : List HNode → List HNode
  | [] => []
  | n :: rest => clearReadAttrN n :: clearReadAttrL rest
end

/-- The attribute transformation performed by cleanClasses on one
element, factored out of cleanClassesN (to which it is definitionally
equal on element nodes). -/
def clsAttrs (keep : List GoStr) (a : List (String × GoStr)) : List (String × GoStr) :=
  let preserved := (goFields (collapse (goTrimSpace (getAttribute a "class")))).filter
    (fun w => keep.contains w)
  if preserved.isEmpty then removeAttribute a "class"
  else setAttribute a "class" (joinSpace preserved)

/-- The attribute transformation performed by clearReadabilityAttr on
one element, factored out of clearReadAttrN. -/
def clearAttrs (a : List (String × GoStr)) : List (String × GoStr) :=
  removeAttribute (removeAttribute a "data-readability-score") "data-readability-table"

/-- Configuration options of the Readability value (readability.go
lines 115 to 132), with the defaults installed by New. -/
structure Config where
  maxElemsToParse : Int
  nTopCandidates : Int
  charThresholds : Int
  classesToPreserve : List GoStr
  tagsToScore : List String

/-- Model of postProcessContent (readability.go lines 1865 to 1874):
absolute URIs, class stripping, readability-attribute removal, in that
order. -/
def postProcessContent (R : UResolver) (cfg : Config) (articleContent : HNode) : HNode :=
  clearReadAttrN (cleanClassesN cfg.classesToPreserve (fixNode R articleContent))

/-! ## Conditional cleaning -/

/-- Model of isReadabilityDataTable (readability.go line 1591). -/
def isReadabilityDataTable (n : HNode) : Bool := hasAttribute (attrsOf n) "data-readability-table"

/-- Walk of hasAncestorTag (readability.go lines 1531 to 1549) over an
explicit ancestor chain, nearest ancestor first: the depth bound is
checked before each test, a non-positive maxDepth disables it. -/
def hasAncestorTagAux (tag : String) (maxDepth : Int) (filt : HNode → Bool) :
    Nat → List HNode → Bool
  | _, [] => false
  | depth, p :: rest =>
      if maxDepth > 0 ∧ (depth : Int) > maxDepth then false
      else if tagName p = tag ∧ filt p then true
      else hasAncestorTagAux tag maxDepth filt (depth + 1) rest

/-- Model of hasAncestorTag; a nil Go filter is the constant-true
filter. -/
def hasAncestorTag (anc : List HNode) (tag : String) (maxDepth : Int) (filt : HNode → Bool) :
    Bool :=
  hasAncestorTagAux tag maxDepth filt 0 anc

/-- Void elements of the HTML serializer, which render without a
closing tag and whose render fails when they have children. -/
def voidElements : List String :=
  ["area", "base", "br", "col", "embed", "hr", "img", "input", "keygen",
   "link", "meta", "param", "source", "track", "wbr"]

/-- Escaping applied by the Go renderer to text and attribute values. -/
def escChar (c : Char) : GoStr :=
  if c = '&' then "&amp;".toList
  else if c = '\'' then "&#39;".toList
  else if c = '<' then "&lt;".toList
  else if c = '>' then "&gt;".toList
  else if c = '"' then "&#34;".toList
  else [c]

/-- Escape a whole string. -/
def escText (s : GoStr) : GoStr := s.foldr (fun c acc => escChar c ++ acc) []

/-- Serialized attribute list. -/
def renderAttrs : List (String × GoStr) → GoStr
  | [] => []
  | (k, v) :: rest =>
      ' ' :: (k.toList ++ "=\"".toList ++ escText v ++ "\"".toList) ++ renderAttrs rest

mutual
/-- Model of the html.Render serialization used by innerHTML, with
render failures (a void element carrying children) propagated as
none.  Raw-text elements such as script and style are serialized like
normal elements here; no theorem below depends on their escaping,
since the engine removes them before serializing. -/
def renderNode : HNode → Option GoStr
  | .text s => some (escText s)
  | .comment s => some ("<!--".toList ++ s ++ "-->".toList)
  | .elem t a cs =>
      if voidElements.contains t then
        if cs.isEmpty then some ('<' :: (t.toList ++ renderAttrs a) ++ "/>".toList)
        else none
      else
        match renderList cs with
        | none => none
        | some inner =>
            some ('<' :: (t.toList ++ renderAttrs a) ++ ">".toList ++ inner ++
              ("</".toList ++ t.toList ++ ">".toList))

/-- Serialization of a sibling list. -/
def renderList : List HNode → Option GoStr
  | [] => some []
  | n :: rest =>
      match renderNode n, renderList rest with
      | some s, some r => some (s ++ r)
      | _, _ => none
end

/-- Model of innerHTML (source helper): serialize each child, the
empty string on a render error, trimmed at the end. -/
def innerHTML (n : HNode) : GoStr :=
  match renderList (childNodesOf n) with
  | some s => goTrimSpace s
  | none => []

/-- The embeds collected by cleanConditionally: objects, embeds,
iframes, in that order (concatNodeLists). -/
def embedsOf (n : HNode) : List HNode :=
  getElementsByTagName n "object" ++ getElementsByTagName n "embed" ++
    getElementsByTagName n "iframe"

/-- Whether one embed triggers the early keep of cleanConditionally
(readability.go lines 1714 to 1725): an attribute value matching the
video regexp, or for an object element a match on its inner HTML. -/
def videoEmbedMatch (e : HNode) : Bool :=
  (attrsOf e).any (fun kv => rxVideosMatch kv.2) ||
    (tagName e = "object" && rxVideosMatch (innerHTML e))

/-- The removal filter of cleanConditionally (readability.go lines
1684 to 1742), evaluated for a node with the given ancestor chain:
data tables and nodes inside data tables are kept; a negative class
weight removes; with fewer than ten commas, any embed matching the
video regexp keeps the node, and otherwise the seven content
heuristics decide, with embedCount the number of collected embeds
(none of which matched the video regexp at that point).  Go float64
arithmetic is modelled over the rationals, and the floor of the float
division p over three is natural division since p is a count. -/
def cleanCondFilter (f : Flags) (tag : String) (anc : List HNode) (node : HNode) : Bool :=
  if tag = "table" ∧ isReadabilityDataTable node then false
  else if hasAncestorTag anc "table" (-1) isReadabilityDataTable then false
  else
    let weight := getClassWeight f node
    if weight < 0 then true
    else if getCharCount node ',' < 10 then
      let isList := tag = "ul" ∨ tag = "ol"
      let p : Nat := (getElementsByTagName node "p").length
      let img : Nat := (getElementsByTagName node "img").length
      let li : Int := (getElementsByTagName node "li").length - 100
      let inputc : Nat := (getElementsByTagName node "input").length
      let embeds := embedsOf node
      if embeds.any videoEmbedMatch then false
      else
        let embedCount := embeds.length
        let linkDensity := getLinkDensity node
        let contentLength := getInnerTextLen node
        decide (
          (img > 1 ∧ (p : ℚ) / (img : ℚ) < 1/2 ∧
            hasAncestorTag anc "figure" 3 (fun _ => true) = false) ∨
          (¬ isList ∧ li > (p : Int)) ∨
          ((inputc : Int) > ((p / 3 : Nat) : Int)) ∨
          (¬ isList ∧ contentLength < 25 ∧ (img = 0 ∨ img > 2) ∧
            hasAncestorTag anc "figure" 3 (fun _ => true) = false) ∨
          (¬ isList ∧ weight < 25 ∧ linkDensity > 1/5) ∨
          (weight ≥ 25 ∧ linkDensity > 1/2) ∨
          ((embedCount = 1 ∧ contentLength < 75) ∨ embedCount > 1))
    else false

mutual
/-- The tree transformation performed by one cleanConditionally call:
removeNodes iterates the pre-collected matches of the tag backwards,
so each node sees its matching descendants already decided and its
ancestors untouched, which is exactly a bottom-up pass; a removal
decision for a node only inspects the node itself (its subtree) and
the tags and attributes of its ancestors, which descendant removals
never change. -/
def cleanCondNode (f : Flags) (tag : String) (anc : List HNode) : HNode → Option HNode
  | .elem t a cs =>
      let cs' := cleanCondList f tag (HNode.elem t a cs :: anc) cs
      let node := HNode.elem t a cs'
      if t = tag ∧ cleanCondFilter f tag anc node then none else some node
  | n => some n

/-- cleanCondNode over a sibling list. -/
def cleanCondList (f : Flags) (tag : String) (anc : List HNode) : List HNode → List HNode
  | [] => []
  | n :: rest =>
      match cleanCondNode f tag anc n with
      | some n' => n' :: cleanCondList f tag anc rest
      | none => cleanCondList f tag anc rest
end

/-- Model of cleanConditionally (readability.go lines 1674 to 1744):
a no-op when the flag is cleared; the root, having no parent, is never
removed even when its tag matches. -/
def cleanConditionally (f : Flags) (e : HNode) (tag : String) : HNode :=
  if ¬ f.cleanConditionally then e
  else
    match e with
    | .elem t a cs => .elem t a (cleanCondList f tag [HNode.elem t a cs] cs)
    | n => n

/-! ## The grab loop and Parse -/

/-- Model of parseAttempt (readability.go lines 100 to 104). -/
structure ParseAttempt where
  articleContent : HNode
  textLength : Nat

/-- The attempt selected by sorting the attempts by text length in
descending order and taking the first: an attempt with maximal text
length.  Go uses an unstable sort with a strictly-greater comparator,
so among equal lengths any one may surface; this model picks the
earliest, and no claim distinguishes attempts of equal length. -/
def bestAttempt (l : List ParseAttempt) : ParseAttempt :=
  l.foldl (fun b x => if x.textLength > b.textLength then x else b) ⟨.text [], 0⟩

/-- Model of the retry loop of grabArticle (readability.go lines 1144
to 1198).  Each iteration clones the prepared document and runs the
node prepping, scoring, candidate selection, sibling collection,
prepArticle and wrapping passes; those passes are deterministic in the
current flag state (the only other state they read, the byline found
so far, also evolves deterministically along the fixed flag sequence),
so they enter the model as the function argument from flags to the
produced article container.  The loop itself is translated directly:
a result shorter than the threshold is pushed onto the attempts list
and one flag is cleared, stripUnlikelys first, then useWeightClasses,
then cleanConditionally; with nothing left to clear the attempts are
sorted by text length and the longest is returned unless it is empty,
in which case the result is nil. -/
def grabLoop (attempt : Flags → HNode) (threshold : Int) (f : Flags)
    (attempts : List ParseAttempt) : Option HNode :=
  let ac := attempt f
  let tl := getInnerTextLen ac
  if (tl : Int) < threshold then
    if f.stripUnlikelys then
      grabLoop attempt threshold ⟨false, f.useWeightClasses, f.cleanConditionally⟩
        (attempts ++ [⟨ac, tl⟩])
    else if f.useWeightClasses then
      grabLoop attempt threshold ⟨f.stripUnlikelys, false, f.cleanConditionally⟩
        (attempts ++ [⟨ac, tl⟩])
    else if f.cleanConditionally then
      grabLoop attempt threshold ⟨f.stripUnlikelys, f.useWeightClasses, false⟩
        (attempts ++ [⟨ac, tl⟩])
    else
      let best := bestAttempt (attempts ++ [⟨ac, tl⟩])
      if best.textLength = 0 then none else some best.articleContent
  else some ac
termination_by f.countTrue
decreasing_by
  · simp_all [Flags.countTrue]
  · simp_all [Flags.countTrue]
  · simp_all [Flags.countTrue]

/-- The metadata record produced by getArticleMetadata, an input of
the model (the claims under verification do not inspect the metadata
mining). -/
structure MetadataM where
  title : GoStr
  byline : GoStr
  excerpt : GoStr
  siteName : GoStr
  image : GoStr
  favicon : GoStr

/-- The parts of the pipeline the verified claims treat as opaque,
supplied as parameters: the metadata record mined from the prepared
document, the article container produced by passes one to seven of
grabArticle for a given flag state, and the byline captured during
node prepping. -/
structure PipelineFns where
  getMetadata : HNode → MetadataM
  attempt : HNode → Flags → HNode
  articleByline : GoStr

/-- Model of the Article record (readability.go lines 136 to 179).
The Go zero Node placeholder installed when no content is found is
modelled as none. -/
structure ArticleM where
  title : GoStr
  byline : GoStr
  dir : GoStr
  content : GoStr
  textContent : GoStr
  excerpt : GoStr
  siteName : GoStr
  favicon : GoStr
  image : GoStr
  length : Nat
  node : Option HNode

/-- Element count of the document, as Parse computes it with
getElementsByTagName star. -/
def countElements (doc : HNode) : Nat := (getElementsByTagName doc "*").length

/-- Model of grabArticle on the prepared document: nil when the
document has no body (the in-loop page check, constant across
iterations since the loop clones the same document), otherwise the
retry loop from the all-true flag state with an empty attempts list,
as Parse resets them. -/
def grabArticleM (cfg : Config) (fns : PipelineFns) (doc : HNode) : Option HNode :=
  if (getElementsByTagName doc "body").isEmpty then none
  else grabLoop (fns.attempt doc) cfg.charThresholds ⟨true, true, true⟩ []

/-- The post-processed article container of a Parse run, when any. -/
def articleContainerM (R : UResolver) (cfg : Config) (fns : PipelineFns) (doc : HNode) :
    Option HNode :=
  (grabArticleM cfg fns (prepDocument (removeScripts doc))).map (postProcessContent R cfg)

/-- Model of Parse (readability.go lines 1877 to 1961) from the point
where the page URL and the HTML input have been parsed successfully
(the two earlier error returns of Parse are the failures of those
external parsers): the element-count guard is the only remaining error
return, then scripts are removed, the document is prepared, metadata
is mined, the grab loop runs, and the Article record is assembled,
with post-processing and the first-paragraph excerpt fallback applied
when an article container was found. -/
def ParseModel (R : UResolver) (cfg : Config) (fns : PipelineFns) (doc : HNode) :
    Except String ArticleM :=
  if cfg.maxElemsToParse > 0 ∧ (countElements doc : Int) > cfg.maxElemsToParse then
    .error ("too many elements: " ++ toString (countElements doc))
  else
    let doc1 := prepDocument (removeScripts doc)
    let metadata := fns.getMetadata doc1
    let finalByline := if metadata.byline = [] then fns.articleByline else metadata.byline
    match grabArticleM cfg fns doc1 with
    | none =>
        .ok { title := metadata.title, byline := finalByline, dir := [], content := [],
              textContent := [], excerpt := metadata.excerpt, siteName := metadata.siteName,
              favicon := metadata.favicon, image := metadata.image, length := 0, node := none }
    | some ac =>
        let ac2 := postProcessContent R cfg ac
        let excerpt :=
          if metadata.excerpt = [] then
            match getElementsByTagName ac2 "p" with
            | [] => metadata.excerpt
            | pnode :: _ => goTrimSpace (textContentL pnode)
          else metadata.excerpt
        let finalText := goTrimSpace (textContentL ac2)
        .ok { title := metadata.title, byline := finalByline, dir := [],
              content := innerHTML ac2, textContent := finalText, excerpt := excerpt,
              siteName := metadata.siteName, favicon := metadata.favicon,
              image := metadata.image, length := finalText.length,
              node := firstElementChild ac2 }

/-! ## Specification-side definitions

The definitions below are written from the words of the specification
or of a claim, for comparison against the embedded code. -/

/-- The grab-loop outcome as the specification narrates it: four
attempts with the flag states in relaxation order, the first one long
enough returned, otherwise the longest recorded attempt if its text is
nonempty. -/
def specGrabResult (attempt : Flags → HNode) (threshold : Int) : Option HNode :=
  let f0 : Flags := ⟨true, true, true⟩
  let f1 : Flags := ⟨false, true, true⟩
  let f2 : Flags := ⟨false, false, true⟩
  let f3 : Flags := ⟨false, false, false⟩
  if (getInnerTextLen (attempt f0) : Int) ≥ threshold then some (attempt f0)
  else if (getInnerTextLen (attempt f1) : Int) ≥ threshold then some (attempt f1)
  else if (getInnerTextLen (attempt f2) : Int) ≥ threshold then some (attempt f2)
  else if (getInnerTextLen (attempt f3) : Int) ≥ threshold then some (attempt f3)
  else
    let best := bestAttempt
      [⟨attempt f0, getInnerTextLen (attempt f0)⟩, ⟨attempt f1, getInnerTextLen (attempt f1)⟩,
       ⟨attempt f2, getInnerTextLen (attempt f2)⟩, ⟨attempt f3, getInnerTextLen (attempt f3)⟩]
    if best.textLength = 0 then none else some best.articleContent

mutual
/-- Every element of a subtree in document order, the root included
when it is an element. -/
def elemsPreorder : HNode → List HNode
  | .elem t a cs => HNode.elem t a cs :: elemsPreorderL cs
  | _ => []

/-- elemsPreorder over a sibling list. -/
def elemsPreorderL : List HNode → List HNode
  | [] => []
  | c :: cs => elemsPreorder c ++ elemsPreorderL cs
end

/-- The tag test of getElementsByTagName: a star matches every
element. -/
def tagMatches (tag : String) (n : HNode) : Bool := tag = "*" ∨ tagName n = tag

/-- Specification-side description of getElementsByTagName as the
claim states it: the matching element descendants of the node, the
node itself excluded. -/
def specDescendantsByTag (n : HNode) (tag : String) : List HNode :=
  (elemsPreorderL (childNodesOf n)).filter (tagMatches tag)

/-- Specification-side description of getElementsByTagName as the
code implements it: the matching elements of the whole subtree, the
node itself included when it matches. -/
def specSubtreeByTag (n : HNode) (tag : String) : List HNode :=
  (elemsPreorder n).filter (tagMatches tag)

/-- The removal test of cleanConditionally as claim C6 words it: skip
data tables and nodes under data tables; remove when the class weight
is negative, or when the comma count is under ten and one of the seven
listed heuristics holds, with embedCount the number of collected
embeds that do not match the video regexp and a video-matching embed
only excluded from that count. -/
def c6ClaimRemoves (f : Flags) (tag : String) (anc : List HNode) (node : HNode) : Bool :=
  if tag = "table" ∧ isReadabilityDataTable node then false
  else if hasAncestorTag anc "table" (-1) isReadabilityDataTable then false
  else
    let weight := getClassWeight f node
    let isList := tag = "ul" ∨ tag = "ol"
    let p : Nat := (getElementsByTagName node "p").length
    let img : Nat := (getElementsByTagName node "img").length
    let li : Int := (getElementsByTagName node "li").length - 100
    let inputc : Nat := (getElementsByTagName node "input").length
    let embedCount := ((embedsOf node).filter (fun e => !videoEmbedMatch e)).length
    let linkDensity := getLinkDensity node
    let contentLength := getInnerTextLen node
    decide (
      weight < 0 ∨
        (getCharCount node ',' < 10 ∧
          ((img > 1 ∧ (p : ℚ) / (img : ℚ) < 1/2 ∧
              hasAncestorTag anc "figure" 3 (fun _ => true) = false) ∨
            (¬ isList ∧ li > (p : Int)) ∨
            ((inputc : Int) > ((p / 3 : Nat) : Int)) ∨
            (¬ isList ∧ contentLength < 25 ∧ (img = 0 ∨ img > 2) ∧
              hasAncestorTag anc "figure" 3 (fun _ => true) = false) ∨
            (¬ isList ∧ weight < 25 ∧ linkDensity > 1/5) ∨
            (weight ≥ 25 ∧ linkDensity > 1/2) ∨
            ((embedCount = 1 ∧ contentLength < 75) ∨ embedCount > 1))))

/-- The removal test of cleanConditionally as amended by the video
early keep the code actually performs: identical to the claim except
that a node containing any embed that matches the video regexp is
never removed by the heuristics (only a negative class weight still
removes it), and embedCount is then simply the number of collected
embeds. -/
def c6AmendedRemoves (f : Flags) (tag : String) (anc : List HNode) (node : HNode) : Bool :=
  if tag = "table" ∧ isReadabilityDataTable node then false
  else if hasAncestorTag anc "table" (-1) isReadabilityDataTable then false
  else
    let weight := getClassWeight f node
    let isList := tag = "ul" ∨ tag = "ol"
    let p : Nat := (getElementsByTagName node "p").length
    let img : Nat := (getElementsByTagName node "img").length
    let li : Int := (getElementsByTagName node "li").length - 100
    let inputc : Nat := (getElementsByTagName node "input").length
    let embedCount := (embedsOf node).length
    let linkDensity := getLinkDensity node
    let contentLength := getInnerTextLen node
    decide (
      weight < 0 ∨
        (getCharCount node ',' < 10 ∧
          (embedsOf node).any videoEmbedMatch = false ∧
          ((img > 1 ∧ (p : ℚ) / (img : ℚ) < 1/2 ∧
              hasAncestorTag anc "figure" 3 (fun _ => true) = false) ∨
            (¬ isList ∧ li > (p : Int)) ∨
            ((inputc : Int) > ((p / 3 : Nat) : Int)) ∨
            (¬ isList ∧ contentLength < 25 ∧ (img = 0 ∨ img > 2) ∧
              hasAncestorTag anc "figure" 3 (fun _ => true) = false) ∨
            (¬ isList ∧ weight < 25 ∧ linkDensity > 1/5) ∨
            (weight ≥ 25 ∧ linkDensity > 1/2) ∨
            ((embedCount = 1 ∧ contentLength < 75) ∨ embedCount > 1))))

/-! ## Well-formedness predicates -/

/-- Pairwise distinct attribute keys on one node, the invariant the
HTML5 tokenizer guarantees (duplicate attributes are dropped). -/
def keysUnique : List (String × GoStr) → Bool
  | [] => true
  | (k, _) :: rest => !hasAttribute rest k && keysUnique rest

mutual
/-- Every node of the subtree has pairwise distinct attribute keys. -/
def wellAttrs : HNode → Bool
  | .elem _ a cs => keysUnique a && wellAttrsL cs
  | _ => true

/-- wellAttrs over a sibling list. -/
def wellAttrsL : List HNode → Bool
  | [] => true
  | n :: rest => wellAttrs n && wellAttrsL rest
end

mutual
/-- No node of the subtree carries either readability attribute. -/
def noReadAttrs : HNode → Bool
  | .elem _ a cs =>
      !hasAttribute a "data-readability-score" && !hasAttribute a "data-readability-table" &&
        noReadAttrsL cs
  | _ => true

/-- noReadAttrs over a sibling list. -/
def noReadAttrsL : List HNode → Bool
  | [] => true
  | n :: rest => noReadAttrs n && noReadAttrsL rest
end

mutual
/-- The subtree contains no anchor element at all. -/
def anchorFree : HNode → Bool
  | .elem t _ cs => t ≠ "a" && anchorFreeL cs
  | _ => true

/-- anchorFree over a sibling list. -/
def anchorFreeL : List HNode → Bool
  | [] => true
  | n :: rest => anchorFree n && anchorFreeL rest
end

mutual
/-- No anchor element of the subtree contains another anchor element,
the shape the HTML5 parser guarantees (it never nests anchors). -/
def noNestedAnchor : HNode → Bool
  | .elem t _ cs => if t = "a" then anchorFreeL cs else noNestedAnchorL cs
  | _ => true

/-- noNestedAnchor over a sibling list. -/
def noNestedAnchorL : List HNode → Bool
  | [] => true
  | n :: rest => noNestedAnchor n && noNestedAnchorL rest
end

/-! ## Concrete inputs used by witnesses and counterexamples -/

/-- The default configuration installed by New (readability.go lines
182 to 190). -/
def defaultConfig : Config :=
  ⟨0, 5, 500, ["page".toList],
   ["section", "h2", "h3", "h4", "h5", "h6", "p", "td", "pre"]⟩

/-- The default configuration with the element cap set to three, the
setting of the repository test TestMaxElemsToParse. -/
def cappedConfig : Config :=
  ⟨3, 5, 500, ["page".toList],
   ["section", "h2", "h3", "h4", "h5", "h6", "p", "td", "pre"]⟩

/-- The five-element document of the repository tests: html, head with
a title, body with a paragraph. -/
def wDoc : HNode :=
  .elem "html" []
    [.elem "head" [] [.elem "title" [] [.text "hello world".toList]],
     .elem "body" [] [.elem "p" [] [.text "lorem ipsum".toList]]]

/-- An empty metadata record. -/
def wMeta : MetadataM := ⟨[], [], [], [], [], []⟩

/-- Opaque pipeline parts for witness runs: empty metadata and an
attempt that always produces an empty container. -/
def wFns : PipelineFns := ⟨fun _ => wMeta, fun _ _ => .elem "div" [] [], []⟩

/-- A concrete resolver whose ResolveReference always produces one
fixed absolute URL, which its ParseRequestURI recognizes. -/
def wResolver : UResolver :=
  ⟨false,
   fun s => if s = "https://cixtor.com/x".toList then some ("https".toList, "cixtor.com".toList)
     else none,
   fun s => some s,
   fun _ => "https://cixtor.com/x".toList⟩

/-- The article record produced by a witness run in which the grab
loop finds nothing. -/
def wArticle0 : ArticleM := ⟨[], [], [], [], [], [], [], [], [], 0, none⟩

/-- A div holding an iframe whose src matches the video regexp and an
input element: the heuristics of claim C6 would remove it, the code
keeps it. -/
def c6BadDiv : HNode :=
  .elem "div" []
    [.elem "iframe" [("src", "//www.youtube.com/embed/x1".toList)] [],
     .elem "input" [] []]

/-- An article container holding c6BadDiv. -/
def c6Container : HNode := .elem "div" [] [c6BadDiv]

/-- A resolver behaving as net/url does on the href
Javascript:void(0): ParseRequestURI parses it with a scheme but no
hostname, so toAbsoluteURI falls through to resolution, and url.Parse
lowercases the scheme, so ResolveReference returns the same reference
with the scheme written javascript. -/
def cxResolver : UResolver :=
  ⟨false,
   fun s => if s = "Javascript:void(0)".toList then some ("javascript".toList, []) else none,
   fun s => some s,
   fun s => if s = "Javascript:void(0)".toList then "javascript:void(0)".toList else s⟩
/-! ## Attribute-list lemmas -/

theorem getAttribute_setAttribute_self (a : List (String × GoStr)) (k : String) (v : GoStr) :
    getAttribute (setAttribute a k v) k = v := by
  induction a with
  | nil => simp [setAttribute, getAttribute]
  | cons kv rest ih =>
      obtain ⟨k2, w⟩ := kv
      by_cases h : k2 = k
      · simp [setAttribute, getAttribute, h]
      · simp [setAttribute, getAttribute, h, ih]

theorem getAttribute_setAttribute_ne (a : List (String × GoStr)) (k k2 : String) (v : GoStr)
    (h : ¬ k2 = k) : getAttribute (setAttribute a k2 v) k = getAttribute a k := by
  induction a with
  | nil => simp [setAttribute, getAttribute, h]
  | cons kv rest ih =>
      obtain ⟨k3, w⟩ := kv
      by_cases h3 : k3 = k2
      · subst h3
        simp [setAttribute, getAttribute, h]
      · simp [setAttribute, getAttribute, h3, ih]

theorem getAttribute_removeAttribute_ne (a : List (String × GoStr)) (k k2 : String)
    (h : ¬ k2 = k) : getAttribute (removeAttribute a k2) k = getAttribute a k := by
  induction a with
  | nil => simp [removeAttribute]
  | cons kv rest ih =>
      obtain ⟨k3, w⟩ := kv
      by_cases h3 : k3 = k2
      · subst h3
        simp [removeAttribute, getAttribute, h]
      · simp [removeAttribute, getAttribute, h3, ih]

theorem setAttribute_setAttribute_self (a : List (String × GoStr)) (k : String) (v w : GoStr) :
    setAttribute (setAttribute a k v) k w = setAttribute a k w := by
  induction a with
  | nil => simp [setAttribute]
  | cons kv rest ih =>
      obtain ⟨k2, u⟩ := kv
      by_cases h : k2 = k
      · simp [setAttribute, h]
      · simp [setAttribute, h, ih]

theorem hasAttribute_removeAttribute_ne (a : List (String × GoStr)) (k k2 : String)
    (h : ¬ k2 = k) : hasAttribute (removeAttribute a k2) k = hasAttribute a k := by
  induction a with
  | nil => simp [removeAttribute]
  | cons kv rest ih =>
      obtain ⟨k3, w⟩ := kv
      by_cases h3 : k3 = k2
      · subst h3
        simp [removeAttribute, hasAttribute, h]
      · simp [removeAttribute, hasAttribute, h3, ih]

theorem hasAttribute_setAttribute_ne (a : List (String × GoStr)) (k k2 : String) (v : GoStr)
    (h : ¬ k2 = k) : hasAttribute (setAttribute a k2 v) k = hasAttribute a k := by
  induction a with
  | nil => simp [setAttribute, hasAttribute, h]
  | cons kv rest ih =>
      obtain ⟨k3, w⟩ := kv
      by_cases h3 : k3 = k2
      · subst h3
        simp [setAttribute, hasAttribute, h]
      · simp [setAttribute, hasAttribute, h3, ih]

theorem removeAttribute_of_not_has (a : List (String × GoStr)) (k : String)
    (h : hasAttribute a k = false) : removeAttribute a k = a := by
  induction a with
  | nil => simp [removeAttribute]
  | cons kv rest ih =>
      obtain ⟨k2, w⟩ := kv
      simp [hasAttribute] at h
      simp [removeAttribute, h.1, ih h.2]

theorem getAttribute_of_not_has (a : List (String × GoStr)) (k : String)
    (h : hasAttribute a k = false) : getAttribute a k = [] := by
  induction a with
  | nil => simp [getAttribute]
  | cons kv rest ih =>
      obtain ⟨k2, w⟩ := kv
      simp [hasAttribute] at h
      simp [getAttribute, h.1, ih h.2]

theorem hasAttribute_removeAttribute_self (a : List (String × GoStr)) (k : String)
    (h : keysUnique a = true) : hasAttribute (removeAttribute a k) k = false := by
  induction a with
  | nil => simp [removeAttribute, hasAttribute]
  | cons kv rest ih =>
      obtain ⟨k2, w⟩ := kv
      simp [keysUnique] at h
      by_cases h2 : k2 = k
      · subst h2
        simp [removeAttribute, h.1]
      · simp [removeAttribute, h2, hasAttribute, ih h.2]

theorem getAttribute_removeAttribute_self (a : List (String × GoStr)) (k : String)
    (h : keysUnique a = true) : getAttribute (removeAttribute a k) k = [] := by
  induction a with
  | nil => simp [removeAttribute, getAttribute]
  | cons kv rest ih =>
      obtain ⟨k2, w⟩ := kv
      simp [keysUnique] at h
      by_cases h2 : k2 = k
      · subst h2
        simp only [removeAttribute, if_pos rfl]
        exact getAttribute_of_not_has rest _ h.1
      · simp [removeAttribute, getAttribute, h2, ih h.2]

theorem keysUnique_setAttribute (a : List (String × GoStr)) (k : String) (v : GoStr)
    (h : keysUnique a = true) : keysUnique (setAttribute a k v) = true := by
  induction a with
  | nil => simp [setAttribute, keysUnique, hasAttribute]
  | cons kv rest ih =>
      obtain ⟨k2, w⟩ := kv
      simp [keysUnique] at h
      by_cases h2 : k2 = k
      · subst h2
        simp [setAttribute, keysUnique, h.1, h.2]
      · simp only [setAttribute, if_neg h2, keysUnique]
        rw [hasAttribute_setAttribute_ne rest k2 k v (fun hh => h2 hh.symm)]
        simp [h.1, ih h.2]

theorem keysUnique_removeAttribute (a : List (String × GoStr)) (k : String)
    (h : keysUnique a = true) : keysUnique (removeAttribute a k) = true := by
  induction a with
  | nil => simp [removeAttribute, keysUnique]
  | cons kv rest ih =>
      obtain ⟨k2, w⟩ := kv
      simp [keysUnique] at h
      by_cases h2 : k2 = k
      · simp [removeAttribute, h2, h.2]
      · simp only [removeAttribute, if_neg h2, keysUnique]
        rw [hasAttribute_removeAttribute_ne rest k2 k (fun hh => h2 hh.symm)]
        simp [h.1, ih h.2]

theorem setAttribute_comm (a : List (String × GoStr)) (k1 k2 : String) (v1 v2 : GoStr)
    (h : ¬ k1 = k2) (hp : hasAttribute a k1 = true ∨ hasAttribute a k2 = true) :
    setAttribute (setAttribute a k1 v1) k2 v2 = setAttribute (setAttribute a k2 v2) k1 v1 := by
  induction a with
  | nil => simp [hasAttribute] at hp
  | cons kv rest ih =>
      obtain ⟨k3, w⟩ := kv
      by_cases h3 : k3 = k1
      · subst h3
        simp [setAttribute, fun hh : k3 = k2 => h hh]
      · by_cases h4 : k3 = k2
        · subst h4
          simp [setAttribute, h3, fun hh : k3 = k1 => h3 hh]
        · have hp2 : hasAttribute rest k1 = true ∨ hasAttribute rest k2 = true := by
            simp [hasAttribute, h3, h4] at hp
            exact hp
          simp [setAttribute, h3, h4, ih hp2]

theorem setAttribute_removeAttribute_comm (a : List (String × GoStr)) (k1 k2 : String)
    (v : GoStr) (h : ¬ k1 = k2) :
    setAttribute (removeAttribute a k2) k1 v = removeAttribute (setAttribute a k1 v) k2 := by
  induction a with
  | nil => simp [setAttribute, removeAttribute, h]
  | cons kv rest ih =>
      obtain ⟨k3, w⟩ := kv
      by_cases h3 : k3 = k1
      · subst h3
        simp [setAttribute, removeAttribute, fun hh : k3 = k2 => h hh]
      · by_cases h4 : k3 = k2
        · subst h4
          simp [setAttribute, removeAttribute, h3]
        · simp [setAttribute, removeAttribute, h3, h4, ih]

theorem removeAttribute_comm (a : List (String × GoStr)) (k1 k2 : String) :
    removeAttribute (removeAttribute a k1) k2 = removeAttribute (removeAttribute a k2) k1 := by
  by_cases h : k1 = k2
  · subst h; rfl
  · induction a with
    | nil => simp [removeAttribute]
    | cons kv rest ih =>
        obtain ⟨k3, w⟩ := kv
        by_cases h3 : k3 = k1
        · subst h3
          simp [removeAttribute, fun hh : k3 = k2 => h hh]
        · by_cases h4 : k3 = k2
          · subst h4
            simp [removeAttribute, h3]
          · simp [removeAttribute, h3, h4, ih]

/-! ## C7: getElementsByTagName -/

mutual
theorem gebtn_eq_spec : ∀ (n : HNode) (tag : String),
    getElementsByTagName n tag = specSubtreeByTag n tag
  | .elem t a cs, tag => by
      simp only [getElementsByTagName, specSubtreeByTag, elemsPreorder, List.filter_cons]
      rw [gebtnL_eq_spec cs tag]
      by_cases h : tag = "*" ∨ t = tag
      · have : tagMatches tag (HNode.elem t a cs) = true := by
          simp [tagMatches, tagName]
          tauto
        simp [h, this, specSubtreeByTag]
      · have : ¬ tagMatches tag (HNode.elem t a cs) = true := by
          simp [tagMatches, tagName]
          tauto
        simp [h, this]
  | .text s, tag => by
      simp [getElementsByTagName, specSubtreeByTag, elemsPreorder]
  | .comment s, tag => by
      simp [getElementsByTagName, specSubtreeByTag, elemsPreorder]

theorem gebtnL_eq_spec : ∀ (l : List HNode) (tag : String),
    getElementsByTagNameL l tag = (elemsPreorderL l).filter (tagMatches tag)
  | [], tag => by simp [getElementsByTagNameL, elemsPreorderL]
  | c :: cs, tag => by
      simp only [getElementsByTagNameL, elemsPreorderL, List.filter_append]
      rw [gebtn_eq_spec c tag, gebtnL_eq_spec cs tag]
      rfl
end

/-- C7 counterexample: on a childless p element the Go helper returns
the element itself, while the claim (descendants only) predicts the
empty list. -/
theorem c7_counterexample :
    getElementsByTagName (HNode.elem "p" [] []) "p" ≠
      specDescendantsByTag (HNode.elem "p" [] []) "p" := by
  intro h
  have h2 := congrArg List.length h
  simp only [getElementsByTagName, getElementsByTagNameL, specDescendantsByTag, childNodesOf,
    elemsPreorderL, List.filter_nil] at h2
  simp at h2

/-- C7 (amended): getElementsByTagName returns exactly the elements of
the subtree rooted at the node, in document order, whose tag matches
the argument, with a star matching every element; the node itself is
included when it matches. -/
theorem c7_get_elements_by_tag_name (n : HNode) (tag : String) :
    getElementsByTagName n tag = specSubtreeByTag n tag :=
  gebtn_eq_spec n tag

/-! ## C6: cleanConditionally -/

theorem cleanCondFilter_eq_amended (f : Flags) (tag : String) (anc : List HNode) (node : HNode) :
    cleanCondFilter f tag anc node = c6AmendedRemoves f tag anc node := by
  simp only [cleanCondFilter, c6AmendedRemoves]
  split_ifs with h1 h2 hw hc ha
  · rfl
  · rfl
  · simp [hw]
  · simp [hw, hc, ha]
  · simp [hw, hc, ha]
  · simp [hw, hc]

/-- C6 counterexample: a div containing a video iframe and an input
satisfies the removal formula of the claim (the input heuristic
fires, the video embed being merely excluded from embedCount), yet
cleanConditionally keeps the whole container unchanged, because the
code returns early and keeps any node containing a video-matching
embed. -/
theorem c6_counterexample :
    cleanConditionally ⟨true, true, true⟩ c6Container "div" = c6Container ∧
      c6ClaimRemoves ⟨true, true, true⟩ "div" [c6Container] c6BadDiv = true := by
  constructor
  · rfl
  · rfl

/-- C6 (amended): with the cleanConditionally flag set, the removal
test applied to each collected element of the tag equals the claimed
formula amended in one point: an element containing any object, embed
or iframe that matches the video regexp (in an attribute value, or
for an object in its inner HTML) is never removed by the comma-guarded
heuristics, and embedCount is otherwise the plain number of collected
embeds; a negative class weight still removes such an element, since
that test precedes the embed scan. -/
theorem c6_clean_conditionally (f : Flags) (tag : String) (anc : List HNode) (node : HNode) :
    cleanCondFilter f tag anc node = c6AmendedRemoves f tag anc node :=
  cleanCondFilter_eq_amended f tag anc node

/-! ## C5: the br-to-p rewrite -/

/-- C5 evaluation at the failing input.  The br-chain scan breaks
only on a node whose tagName is the upper-case literal BR, while the
HTML5 parser produces lower-case br tags, so the break never fires:
for body holding div with text foo, a single br, text bar, the
rewrite deletes the non-whitespace text node bar and replaces the br
by an empty p.  The second conjunct evaluates the example given in
the doc comment of replaceBrs itself (foo, br, bar, br, space, br,
br, abc), which the comment says becomes foo, br, bar, p holding abc;
the code instead deletes everything after the first br. -/
theorem c5_replace_brs_deletes_text :
    replaceBrs (.elem "body" []
        [.elem "div" [] [.text "foo".toList, .elem "br" [] [], .text "bar".toList]]) =
      .elem "body" [] [.elem "div" [] [.text "foo".toList, .elem "p" [] []]] ∧
    replaceBrs (.elem "body" []
        [.elem "div" [] [.text "foo".toList, .elem "br" [] [], .text "bar".toList,
          .elem "br" [] [], .text " ".toList, .elem "br" [] [], .elem "br" [] [],
          .text "abc".toList]]) =
      .elem "body" [] [.elem "div" [] [.text "foo".toList, .elem "p" [] []]] := by
  constructor
  · simp [replaceBrs, replaceBrsList, brChain, brSkip, tagName, isElem, textContentL, wsR,
      hoistSplit, stripTrailingWs, isBrNextElem, nextElementL, isPhrasingContent,
      isWhitespaceNode, goTrimSpace, trimLeftT, trimRightT, wsT]
  · simp [replaceBrs, replaceBrsList, brChain, brSkip, tagName, isElem, textContentL, wsR,
      hoistSplit, stripTrailingWs, isBrNextElem, nextElementL, isPhrasingContent,
      isWhitespaceNode, goTrimSpace, trimLeftT, trimRightT, wsT]

/-! ## C1: the element cap -/

/-- C1: for a valid base URL and parseable document (the point where
ParseModel starts), with a positive cap, Parse errors exactly when the
element count exceeds the cap, the message is the literal string too
many elements followed by the decimal count, and on that path only an
error is returned (no Article record is built). -/
theorem c1_element_cap (R : UResolver) (cfg : Config) (fns : PipelineFns) (doc : HNode)
    (h : cfg.maxElemsToParse > 0) :
    ((∃ msg, ParseModel R cfg fns doc = .error msg) ↔
      (countElements doc : Int) > cfg.maxElemsToParse) ∧
    ((countElements doc : Int) > cfg.maxElemsToParse →
      ParseModel R cfg fns doc = .error ("too many elements: " ++ toString (countElements doc))) := by
  unfold ParseModel
  by_cases hc : (countElements doc : Int) > cfg.maxElemsToParse
  · rw [if_pos ⟨h, hc⟩]
    refine ⟨⟨fun _ => hc, fun _ => ⟨_, rfl⟩⟩, fun _ => rfl⟩
  · rw [if_neg (by tauto)]
    refine ⟨⟨?_, fun hcc => absurd hcc hc⟩, fun hcc => absurd hcc hc⟩
    rintro ⟨msg, hmsg⟩
    exfalso
    cases hgr : grabArticleM cfg fns (prepDocument (removeScripts doc)) <;>
      simp [hgr] at hmsg

/-- C1 witness: the five-element test document against a cap of three
errors with the exact message. -/
theorem c1_element_cap_witness :
    cappedConfig.maxElemsToParse > 0 ∧
      ParseModel wResolver cappedConfig wFns wDoc = .error "too many elements: 5" :=
  ⟨by decide, (c1_element_cap wResolver cappedConfig wFns wDoc (by decide)).2 (by decide)⟩

/-! ## C2: the retry loop and the empty article -/

theorem grabLoop_step0 (attempt : Flags → HNode) (th : Int) (atts : List ParseAttempt) :
    grabLoop attempt th ⟨true, true, true⟩ atts =
      if (getInnerTextLen (attempt ⟨true, true, true⟩) : Int) < th then
        grabLoop attempt th ⟨false, true, true⟩
          (atts ++ [⟨attempt ⟨true, true, true⟩, getInnerTextLen (attempt ⟨true, true, true⟩)⟩])
      else some (attempt ⟨true, true, true⟩) := by
  rw [grabLoop]; rfl

theorem grabLoop_step1 (attempt : Flags → HNode) (th : Int) (atts : List ParseAttempt) :
    grabLoop attempt th ⟨false, true, true⟩ atts =
      if (getInnerTextLen (attempt ⟨false, true, true⟩) : Int) < th then
        grabLoop attempt th ⟨false, false, true⟩
          (atts ++ [⟨attempt ⟨false, true, true⟩, getInnerTextLen (attempt ⟨false, true, true⟩)⟩])
      else some (attempt ⟨false, true, true⟩) := by
  rw [grabLoop]; rfl

theorem grabLoop_step2 (attempt : Flags → HNode) (th : Int) (atts : List ParseAttempt) :
    grabLoop attempt th ⟨false, false, true⟩ atts =
      if (getInnerTextLen (attempt ⟨false, false, true⟩) : Int) < th then
        grabLoop attempt th ⟨false, false, false⟩
          (atts ++ [⟨attempt ⟨false, false, true⟩, getInnerTextLen (attempt ⟨false, false, true⟩)⟩])
      else some (attempt ⟨false, false, true⟩) := by
  rw [grabLoop]; rfl

theorem grabLoop_step3 (attempt : Flags → HNode) (th : Int) (atts : List ParseAttempt) :
    grabLoop attempt th ⟨false, false, false⟩ atts =
      if (getInnerTextLen (attempt ⟨false, false, false⟩) : Int) < th then
        (if (bestAttempt (atts ++
            [⟨attempt ⟨false, false, false⟩, getInnerTextLen (attempt ⟨false, false, false⟩)⟩])).textLength = 0
          then none
          else some (bestAttempt (atts ++
            [⟨attempt ⟨false, false, false⟩,
              getInnerTextLen (attempt ⟨false, false, false⟩)⟩])).articleContent)
      else some (attempt ⟨false, false, false⟩) := by
  rw [grabLoop]; rfl

theorem grabLoop_spec (attempt : Flags → HNode) (threshold : Int) :
    grabLoop attempt threshold ⟨true, true, true⟩ [] = specGrabResult attempt threshold := by
  rw [grabLoop_step0]
  by_cases h0 : (getInnerTextLen (attempt ⟨true, true, true⟩) : Int) < threshold
  · have g0 : ¬ (getInnerTextLen (attempt ⟨true, true, true⟩) : Int) ≥ threshold := by omega
    rw [if_pos h0, grabLoop_step1]
    by_cases h1 : (getInnerTextLen (attempt ⟨false, true, true⟩) : Int) < threshold
    · have g1 : ¬ (getInnerTextLen (attempt ⟨false, true, true⟩) : Int) ≥ threshold := by omega
      rw [if_pos h1, grabLoop_step2]
      by_cases h2 : (getInnerTextLen (attempt ⟨false, false, true⟩) : Int) < threshold
      · have g2 : ¬ (getInnerTextLen (attempt ⟨false, false, true⟩) : Int) ≥ threshold := by
          omega
        rw [if_pos h2, grabLoop_step3]
        by_cases h3 : (getInnerTextLen (attempt ⟨false, false, false⟩) : Int) < threshold
        · have g3 : ¬ (getInnerTextLen (attempt ⟨false, false, false⟩) : Int) ≥ threshold := by
            omega
          rw [if_pos h3]
          simp only [specGrabResult]
          rw [if_neg g0, if_neg g1, if_neg g2, if_neg g3]
          simp only [List.nil_append, List.cons_append]
        · have g3 : (getInnerTextLen (attempt ⟨false, false, false⟩) : Int) ≥ threshold := by
            omega
          rw [if_neg h3]
          simp only [specGrabResult]
          rw [if_neg g0, if_neg g1, if_neg g2, if_pos g3]
      · have g2 : (getInnerTextLen (attempt ⟨false, false, true⟩) : Int) ≥ threshold := by omega
        rw [if_neg h2]
        simp only [specGrabResult]
        rw [if_neg g0, if_neg g1, if_pos g2]
    · have g1 : (getInnerTextLen (attempt ⟨false, true, true⟩) : Int) ≥ threshold := by omega
      rw [if_neg h1]
      simp only [specGrabResult]
      rw [if_neg g0, if_pos g1]
  · have g0 : (getInnerTextLen (attempt ⟨true, true, true⟩) : Int) ≥ threshold := by omega
    rw [if_neg h0]
    simp only [specGrabResult]
    rw [if_pos g0]

/-- C2: the grab loop retries exactly along the flag sequence all set,
stripUnlikelys cleared, then useWeightClasses, then cleanConditionally,
pushing each short attempt, returns the first result meeting the
threshold, otherwise the longest recorded attempt when its text is
nonempty and nil when every attempt is empty; and when the loop comes
back empty (and the element cap does not fire), Parse returns a valid
Article with empty Content, empty TextContent and Length zero, with
no error. -/
theorem c2_grab_retry_and_empty_article :
    (∀ (attempt : Flags → HNode) (threshold : Int),
      grabLoop attempt threshold ⟨true, true, true⟩ [] = specGrabResult attempt threshold) ∧
    (∀ (R : UResolver) (cfg : Config) (fns : PipelineFns) (doc : HNode),
      ¬ (cfg.maxElemsToParse > 0 ∧ (countElements doc : Int) > cfg.maxElemsToParse) →
      grabArticleM cfg fns (prepDocument (removeScripts doc)) = none →
      ∃ a, ParseModel R cfg fns doc = .ok a ∧ a.content = [] ∧ a.textContent = [] ∧
        a.length = 0) := by
  refine ⟨grabLoop_spec, ?_⟩
  intro R cfg fns doc h1 h2
  unfold ParseModel
  rw [if_neg h1]
  simp only [h2]
  exact ⟨_, rfl, rfl, rfl, rfl⟩

/-- C2 witness: a document whose body yields empty attempts at every
flag state makes the loop return nil and Parse return the empty
article without an error. -/
theorem c2_witness :
    grabArticleM defaultConfig wFns
        (prepDocument (removeScripts (.elem "html" [] [.elem "body" [] []]))) = none ∧
      ∃ a, ParseModel wResolver defaultConfig wFns (.elem "html" [] [.elem "body" [] []]) = .ok a ∧
        a.content = [] ∧ a.textContent = [] ∧ a.length = 0 := by
  have hg : grabArticleM defaultConfig wFns
      (prepDocument (removeScripts (.elem "html" [] [.elem "body" [] []]))) = none := by
    simp [grabArticleM, removeScripts, removeTagAll, removeTagAllL, prepDocument, applyFirstBody,
      applyFirstBodyL, renameTagAll, renameTagAllL, replaceBrs, replaceBrsList, isElem, tagName,
      grabLoop, wFns, getInnerTextLen, getInnerTextNorm, textContentL, textContentLs, collapse,
      collapseAux, goTrimSpace, trimLeftT, trimRightT, bestAttempt, getElementsByTagName,
      getElementsByTagNameL, defaultConfig]
  exact ⟨hg, c2_grab_retry_and_empty_article.2 wResolver defaultConfig wFns _ (by decide) hg⟩

/-! ## C4: the length law -/

/-- C4: every successful Parse satisfies Length equal to the character
length of TextContent, and TextContent is the trimmed concatenated
text content of the post-processed article container (empty when no
container was found). -/
theorem c4_length_law (R : UResolver) (cfg : Config) (fns : PipelineFns) (doc : HNode)
    (a : ArticleM) (h : ParseModel R cfg fns doc = .ok a) :
    a.length = a.textContent.length ∧
      a.textContent = (match articleContainerM R cfg fns doc with
        | some c => goTrimSpace (textContentL c)
        | none => []) := by
  unfold ParseModel at h
  unfold articleContainerM
  by_cases hc : cfg.maxElemsToParse > 0 ∧ (countElements doc : Int) > cfg.maxElemsToParse
  · rw [if_pos hc] at h
    exact absurd h (by simp)
  · rw [if_neg hc] at h
    cases hgr : grabArticleM cfg fns (prepDocument (removeScripts doc)) with
    | none =>
        simp only [hgr] at h
        simp only [Except.ok.injEq] at h
        subst h
        simp
    | some ac =>
        simp only [hgr] at h
        simp only [Except.ok.injEq] at h
        subst h
        simp

/-- C4 witness: the empty-content run satisfies the length law. -/
theorem c4_length_law_witness :
    ParseModel wResolver defaultConfig wFns wDoc = .ok wArticle0 ∧
      wArticle0.length = wArticle0.textContent.length := by
  have h : ParseModel wResolver defaultConfig wFns wDoc = .ok wArticle0 := by
    simp [ParseModel, grabArticleM, removeScripts, removeTagAll, removeTagAllL, prepDocument,
      applyFirstBody, applyFirstBodyL, renameTagAll, renameTagAllL, replaceBrs, replaceBrsList,
      isElem, tagName, grabLoop, wFns, wMeta, wArticle0, getInnerTextLen, getInnerTextNorm,
      textContentL, textContentLs, collapse, collapseAux, goTrimSpace, trimLeftT, trimRightT,
      bestAttempt, getElementsByTagName, getElementsByTagNameL, defaultConfig, countElements,
      brChain, brSkip, hoistSplit, stripTrailingWs, isBrNextElem, nextElementL,
      isPhrasingContent, isWhitespaceNode, wsR, wsT]
  exact ⟨h, (c4_length_law wResolver defaultConfig wFns wDoc wArticle0 h).1⟩

/-! ## C3: no readability attributes after post-processing -/

mutual
theorem fix_preserves_wellAttrs (R : UResolver) :
    ∀ n : HNode, wellAttrs n = true → wellAttrs (fixNode R n) = true
  | .elem t a cs, h => by
      simp only [wellAttrs, Bool.and_eq_true] at h
      have hcs := fixL_preserves_wellAttrs R cs h.2
      simp only [fixNode]
      split_ifs <;>
        simp [wellAttrs, hcs, h.1, keysUnique_removeAttribute, keysUnique_setAttribute]
  | .text s, _ => by simp [fixNode, wellAttrs]
  | .comment s, _ => by simp [fixNode, wellAttrs]

theorem fixL_preserves_wellAttrs (R : UResolver) :
    ∀ l : List HNode, wellAttrsL l = true → wellAttrsL (fixList R l) = true
  | [], _ => by simp [fixList, wellAttrsL]
  | n :: rest, h => by
      simp only [wellAttrsL, Bool.and_eq_true] at h
      simp [fixList, wellAttrsL, fix_preserves_wellAttrs R n h.1,
        fixL_preserves_wellAttrs R rest h.2]
end

mutual
theorem cls_preserves_wellAttrs (keep : List GoStr) :
    ∀ n : HNode, wellAttrs n = true → wellAttrs (cleanClassesN keep n) = true
  | .elem t a cs, h => by
      simp only [wellAttrs, Bool.and_eq_true] at h
      have hcs := clsL_preserves_wellAttrs keep cs h.2
      simp only [cleanClassesN]
      split_ifs <;>
        simp [wellAttrs, hcs, h.1, keysUnique_removeAttribute, keysUnique_setAttribute]
  | .text s, _ => by simp [cleanClassesN, wellAttrs]
  | .comment s, _ => by simp [cleanClassesN, wellAttrs]

theorem clsL_preserves_wellAttrs (keep : List GoStr) :
    ∀ l : List HNode, wellAttrsL l = true → wellAttrsL (cleanClassesL keep l) = true
  | [], _ => by simp [cleanClassesL, wellAttrsL]
  | n :: rest, h => by
      simp only [wellAttrsL, Bool.and_eq_true] at h
      simp [cleanClassesL, wellAttrsL, cls_preserves_wellAttrs keep n h.1,
        clsL_preserves_wellAttrs keep rest h.2]
end

mutual
theorem clear_noReadAttrs :
    ∀ n : HNode, wellAttrs n = true → noReadAttrs (clearReadAttrN n) = true
  | .elem t a cs, h => by
      simp only [wellAttrs, Bool.and_eq_true] at h
      have hcs := clearL_noReadAttrs cs h.2
      have hs : hasAttribute (removeAttribute (removeAttribute a "data-readability-score")
          "data-readability-table") "data-readability-score" = false := by
        rw [hasAttribute_removeAttribute_ne _ _ _ (by decide)]
        exact hasAttribute_removeAttribute_self a _ h.1
      have ht : hasAttribute (removeAttribute (removeAttribute a "data-readability-score")
          "data-readability-table") "data-readability-table" = false :=
        hasAttribute_removeAttribute_self _ _ (keysUnique_removeAttribute a _ h.1)
      simp [clearReadAttrN, noReadAttrs, hs, ht, hcs]
  | .text s, _ => by simp [clearReadAttrN, noReadAttrs]
  | .comment s, _ => by simp [clearReadAttrN, noReadAttrs]

theorem clearL_noReadAttrs :
    ∀ l : List HNode, wellAttrsL l = true → noReadAttrsL (clearReadAttrL l) = true
  | [], _ => by simp [clearReadAttrL, noReadAttrsL]
  | n :: rest, h => by
      simp only [wellAttrsL, Bool.and_eq_true] at h
      simp [clearReadAttrL, noReadAttrsL, clear_noReadAttrs n h.1,
        clearL_noReadAttrs rest h.2]
end

theorem postProcess_noReadAttrs (R : UResolver) (cfg : Config) (t : HNode)
    (h : wellAttrs t = true) : noReadAttrs (postProcessContent R cfg t) = true :=
  clear_noReadAttrs _
    (cls_preserves_wellAttrs cfg.classesToPreserve _ (fix_preserves_wellAttrs R t h))

theorem noReadAttrsL_mem : ∀ (l : List HNode) (n : HNode), noReadAttrsL l = true → n ∈ l →
    noReadAttrs n = true
  | c :: cs, n, h, hm => by
      simp only [noReadAttrsL, Bool.and_eq_true] at h
      rcases List.mem_cons.mp hm with h1 | h1
      · exact h1 ▸ h.1
      · exact noReadAttrsL_mem cs n h.2 h1

theorem noReadAttrs_firstElementChild (c nd : HNode) (h : noReadAttrs c = true)
    (hf : firstElementChild c = some nd) : noReadAttrs nd = true := by
  have hm : nd ∈ childrenOf c := by
    unfold firstElementChild at hf
    exact List.mem_of_mem_head? hf
  have hm2 : nd ∈ childNodesOf c := List.mem_of_mem_filter hm
  cases c with
  | elem t a cs =>
      simp only [noReadAttrs, Bool.and_eq_true] at h
      exact noReadAttrsL_mem cs nd h.2 hm2
  | text s => simp [childNodesOf] at hm2
  | comment s => simp [childNodesOf] at hm2

theorem foldl_best_mem : ∀ (l : List ParseAttempt) (b : ParseAttempt),
    l.foldl (fun b x => if x.textLength > b.textLength then x else b) b = b ∨
      l.foldl (fun b x => if x.textLength > b.textLength then x else b) b ∈ l
  | [], b => Or.inl rfl
  | x :: xs, b => by
      rcases foldl_best_mem xs (if x.textLength > b.textLength then x else b) with h | h
      · simp only [List.foldl_cons, h]
        by_cases hx : x.textLength > b.textLength
        · simp [hx]
        · simp [hx]
      · simp only [List.foldl_cons]
        right
        exact List.mem_cons_of_mem x h

theorem bestAttempt_mem_of_ne (l : List ParseAttempt)
    (h : ¬ (bestAttempt l).textLength = 0) : bestAttempt l ∈ l := by
  rcases foldl_best_mem l ⟨.text [], 0⟩ with hb | hb
  · rw [bestAttempt, hb] at h
    simp at h
  · rw [bestAttempt]
    exact hb

theorem bestAttempt_four (attempt : Flags → HNode)
    (hz : ¬ (bestAttempt
      [⟨attempt ⟨true, true, true⟩, getInnerTextLen (attempt ⟨true, true, true⟩)⟩,
       ⟨attempt ⟨false, true, true⟩, getInnerTextLen (attempt ⟨false, true, true⟩)⟩,
       ⟨attempt ⟨false, false, true⟩, getInnerTextLen (attempt ⟨false, false, true⟩)⟩,
       ⟨attempt ⟨false, false, false⟩,
         getInnerTextLen (attempt ⟨false, false, false⟩)⟩]).textLength = 0) :
    ∃ f, (bestAttempt
      [⟨attempt ⟨true, true, true⟩, getInnerTextLen (attempt ⟨true, true, true⟩)⟩,
       ⟨attempt ⟨false, true, true⟩, getInnerTextLen (attempt ⟨false, true, true⟩)⟩,
       ⟨attempt ⟨false, false, true⟩, getInnerTextLen (attempt ⟨false, false, true⟩)⟩,
       ⟨attempt ⟨false, false, false⟩,
         getInnerTextLen (attempt ⟨false, false, false⟩)⟩]).articleContent = attempt f := by
  have hm := bestAttempt_mem_of_ne _ hz
  simp only [List.mem_cons, List.not_mem_nil, or_false] at hm
  rcases hm with h1 | h1 | h1 | h1 <;> exact ⟨_, by rw [h1]⟩

theorem specGrab_some (attempt : Flags → HNode) (th : Int) (ac : HNode)
    (h : specGrabResult attempt th = some ac) : ∃ f, ac = attempt f := by
  simp only [specGrabResult] at h
  split_ifs at h with h0 h1 h2 h3 hz
  · exact ⟨_, (Option.some.inj h).symm⟩
  · exact ⟨_, (Option.some.inj h).symm⟩
  · exact ⟨_, (Option.some.inj h).symm⟩
  · exact ⟨_, (Option.some.inj h).symm⟩
  · obtain ⟨f, hf⟩ := bestAttempt_four attempt (by assumption)
    exact ⟨f, by rw [← Option.some.inj h, hf]⟩

/-- C3: after a successful Parse no node of the post-processed article
container, and hence none of the subtree below the returned Node,
carries the data-readability-score or data-readability-table
attribute, provided the per-attempt containers have the
duplicate-free attribute keys the HTML5 tokenizer guarantees. -/
theorem c3_no_readability_leak (R : UResolver) (cfg : Config) (fns : PipelineFns) (doc : HNode)
    (a : ArticleM) (hA : ∀ d f, wellAttrs (fns.attempt d f) = true)
    (h : ParseModel R cfg fns doc = .ok a) :
    (match articleContainerM R cfg fns doc with
      | some c => noReadAttrs c = true
      | none => True) ∧
    (match a.node with
      | some nd => noReadAttrs nd = true
      | none => True) := by
  have hcont : ∀ c, articleContainerM R cfg fns doc = some c → noReadAttrs c = true := by
    intro c hc
    unfold articleContainerM at hc
    cases hgr : grabArticleM cfg fns (prepDocument (removeScripts doc)) with
    | none => rw [hgr] at hc; simp at hc
    | some ac =>
        rw [hgr] at hc
        simp only [Option.map_some'] at hc
        have hex : ∃ f, ac = fns.attempt (prepDocument (removeScripts doc)) f := by
          unfold grabArticleM at hgr
          split_ifs at hgr with hb
          · exact specGrab_some _ _ _ ((grabLoop_spec _ _).symm.trans hgr)
        obtain ⟨f, hf⟩ := hex
        have hcc : c = postProcessContent R cfg ac := (Option.some.inj hc).symm
        rw [hcc, hf]
        exact postProcess_noReadAttrs R cfg _ (hA _ f)
  refine ⟨?_, ?_⟩
  · cases hcm : articleContainerM R cfg fns doc with
    | none => trivial
    | some c => exact hcont c hcm
  · unfold ParseModel at h
    by_cases hc : cfg.maxElemsToParse > 0 ∧ (countElements doc : Int) > cfg.maxElemsToParse
    · rw [if_pos hc] at h
      exact absurd h (by simp)
    · rw [if_neg hc] at h
      cases hgr : grabArticleM cfg fns (prepDocument (removeScripts doc)) with
      | none =>
          simp only [hgr] at h
          simp only [Except.ok.injEq] at h
          subst h
          trivial
      | some ac =>
          simp only [hgr] at h
          simp only [Except.ok.injEq] at h
          subst h
          simp only []
          cases hfe : firstElementChild (postProcessContent R cfg ac) with
          | none => simp [hfe]
          | some nd =>
              simp only [hfe]
              have hcnt : noReadAttrs (postProcessContent R cfg ac) = true := by
                apply hcont
                unfold articleContainerM
                rw [hgr]
                rfl
              exact noReadAttrs_firstElementChild _ _ hcnt hfe

/-- C3 witness: the witness run satisfies both hypotheses and the
returned node is clean. -/
theorem c3_no_readability_leak_witness :
    (∀ d f, wellAttrs (wFns.attempt d f) = true) ∧
      ParseModel wResolver defaultConfig wFns wDoc = .ok wArticle0 ∧
      (match wArticle0.node with
        | some nd => noReadAttrs nd = true
        | none => True) := by
  have hA : ∀ d f, wellAttrs (wFns.attempt d f) = true := fun d f => rfl
  have h : ParseModel wResolver defaultConfig wFns wDoc = .ok wArticle0 := by
    simp [ParseModel, grabArticleM, removeScripts, removeTagAll, removeTagAllL, prepDocument,
      applyFirstBody, applyFirstBodyL, renameTagAll, renameTagAllL, replaceBrs, replaceBrsList,
      isElem, tagName, grabLoop, wFns, wMeta, wArticle0, getInnerTextLen, getInnerTextNorm,
      textContentL, textContentLs, collapse, collapseAux, goTrimSpace, trimLeftT, trimRightT,
      bestAttempt, getElementsByTagName, getElementsByTagNameL, defaultConfig, countElements,
      brChain, brSkip, hoistSplit, stripTrailingWs, isBrNextElem, nextElementL,
      isPhrasingContent, isWhitespaceNode, wsR, wsT]
  exact ⟨hA, h, (c3_no_readability_leak wResolver defaultConfig wFns wDoc wArticle0 hA h).2⟩

/-! ## URL resolution lemmas and C10 -/

theorem getAttribute_ne_nil_has (a : List (String × GoStr)) (k : String)
    (h : getAttribute a k ≠ []) : hasAttribute a k = true := by
  induction a with
  | nil => simp [getAttribute] at h
  | cons kv rest ih =>
      obtain ⟨k2, w⟩ := kv
      by_cases h2 : k2 = k
      · simp [hasAttribute, h2]
      · simp only [getAttribute, if_neg h2] at h
        simp [hasAttribute, h2, ih h]

theorem setAttribute_getAttribute_self (a : List (String × GoStr)) (k : String)
    (h : hasAttribute a k = true) : setAttribute a k (getAttribute a k) = a := by
  induction a with
  | nil => simp [hasAttribute] at h
  | cons kv rest ih =>
      obtain ⟨k2, w⟩ := kv
      by_cases h2 : k2 = k
      · simp [setAttribute, getAttribute, h2]
      · simp [hasAttribute, h2] at h
        simp [setAttribute, getAttribute, h2, ih h]

theorem toAbs_shape (R : UResolver) (uri : GoStr) :
    (toAbsoluteURI R uri = [] ∧ (uri = [] ∨ R.isNil = true)) ∨ toAbsoluteURI R uri = uri ∨
      ∃ ref, R.parseURL uri = some ref ∧ toAbsoluteURI R uri = R.resolveRef ref := by
  unfold toAbsoluteURI resolveStep
  split_ifs with h1 h2
  · exact Or.inl ⟨rfl, h1⟩
  · exact Or.inr (Or.inl rfl)
  · cases hpr : R.parseRequestURI uri with
    | none =>
        simp only [hpr]
        cases hpu : R.parseURL uri with
        | none => exact Or.inr (Or.inl rfl)
        | some ref => exact Or.inr (Or.inr ⟨ref, rfl, rfl⟩)
    | some sh =>
        simp only [hpr]
        by_cases hsh : sh.1 ≠ [] ∧ sh.2 ≠ []
        · simp only [if_pos hsh]
          exact Or.inr (Or.inl (by first | rfl | trivial))
        · simp only [if_neg hsh]
          cases hpu : R.parseURL uri with
          | none => exact Or.inr (Or.inl rfl)
          | some ref => exact Or.inr (Or.inr ⟨ref, rfl, rfl⟩)

theorem toAbs_nil (R : UResolver) : toAbsoluteURI R [] = [] := by
  simp [toAbsoluteURI]

theorem toAbs_fixed (R : UResolver) (hR : GoodResolver R) (uri : GoStr) :
    toAbsoluteURI R (toAbsoluteURI R uri) = toAbsoluteURI R uri := by
  rcases toAbs_shape R uri with ⟨h, _⟩ | h | ⟨ref, _, h⟩
  · rw [h]
    exact toAbs_nil R
  · rw [h]
    exact h
  · rw [h]
    exact (hR.2 ref).2.2

theorem toAbs_ne_nil (R : UResolver) (hR : GoodResolver R) (uri : GoStr) (h : uri ≠ []) :
    toAbsoluteURI R uri ≠ [] := by
  rcases toAbs_shape R uri with ⟨h2, hc⟩ | h2 | ⟨ref, _, h2⟩
  · rcases hc with hc | hc
    · exact absurd hc h
    · rw [hR.1] at hc
      simp at hc
  · rw [h2]
    exact h
  · rw [h2]
    exact (hR.2 ref).1

theorem toAbs_no_js (R : UResolver) (hR : GoodResolver R) (uri : GoStr)
    (h : startsWithL uri "javascript:".toList = false) :
    startsWithL (toAbsoluteURI R uri) "javascript:".toList = false := by
  rcases toAbs_shape R uri with ⟨h2, _⟩ | h2 | ⟨ref, _, h2⟩
  · rw [h2]
    rfl
  · rw [h2]
    exact h
  · rw [h2]
    exact (hR.2 ref).2.1

/-- C10: post-processing leaves a fragment-only href untouched: on an
anchor whose href begins with a hash, the URI pass rewrites nothing
(toAbsoluteURI returns fragment URIs unchanged and setAttribute with
the unchanged value is the identity), and the href read from the
post-processed element equals the original, while any nonempty href
that starts with neither a hash nor the javascript scheme is rewritten
to its toAbsoluteURI resolution. -/
theorem c10_fragment_hrefs (R : UResolver) (cfg : Config) (attrs : List (String × GoStr))
    (cs : List HNode) (hR : GoodResolver R) :
    (startsWithL (getAttribute attrs "href") "#".toList = true →
      fixNode R (.elem "a" attrs cs) = .elem "a" attrs (fixList R cs) ∧
      getAttributeN (postProcessContent R cfg (.elem "a" attrs cs)) "href" =
        getAttribute attrs "href") ∧
    (getAttribute attrs "href" ≠ [] →
      startsWithL (getAttribute attrs "href") "javascript:".toList = false →
      startsWithL (getAttribute attrs "href") "#".toList = false →
      fixNode R (.elem "a" attrs cs) =
        .elem "a" (setAttribute attrs "href" (toAbsoluteURI R (getAttribute attrs "href")))
          (fixList R cs)) := by
  constructor
  · intro hh
    obtain ⟨c, rest, hcr⟩ : ∃ c rest, getAttribute attrs "href" = c :: rest ∧ c = '#' := by
      cases hg : getAttribute attrs "href" with
      | nil => rw [hg] at hh; simp [startsWithL] at hh
      | cons c rest =>
          rw [hg] at hh
          simp [startsWithL] at hh
          exact ⟨c, rest, rfl, hh⟩
    obtain ⟨hcr, hc⟩ := hcr
    subst hc
    have hne : getAttribute attrs "href" ≠ [] := by rw [hcr]; simp
    have hjs : startsWithL (getAttribute attrs "href") "javascript:".toList = false := by
      rw [hcr]
      simp [startsWithL]
    have habs : toAbsoluteURI R (getAttribute attrs "href") = getAttribute attrs "href" := by
      unfold toAbsoluteURI
      rw [if_neg, if_pos]
      · rw [hcr]
        simp [startsWithL]
      · rw [hR.1]
        simp [hne]
    have hfix : fixNode R (.elem "a" attrs cs) = .elem "a" attrs (fixList R cs) := by
      simp only [fixNode, if_pos rfl, if_neg hne]
      rw [hjs]
      simp only [Bool.false_eq_true, if_false]
      rw [habs, if_neg hne, setAttribute_getAttribute_self attrs "href"
        (getAttribute_ne_nil_has attrs "href" hne)]
      simp
    refine ⟨hfix, ?_⟩
    rw [postProcessContent, hfix]
    simp only [cleanClassesN, clearReadAttrN, getAttributeN, attrsOf]
    split_ifs
    · rw [getAttribute_removeAttribute_ne _ _ _ (by decide),
        getAttribute_removeAttribute_ne _ _ _ (by decide),
        getAttribute_removeAttribute_ne _ _ _ (by decide)]
    · rw [getAttribute_removeAttribute_ne _ _ _ (by decide),
        getAttribute_removeAttribute_ne _ _ _ (by decide),
        getAttribute_setAttribute_ne _ _ _ _ (by decide)]
  · intro hne hjs hh
    simp only [fixNode, if_pos rfl, if_neg hne]
    rw [hjs]
    simp only [Bool.false_eq_true, if_false]
    rw [if_neg (toAbs_ne_nil R hR _ hne)]
    simp

/-- C10 witness: a concrete anchor with a fragment href keeps it
through post-processing. -/
theorem c10_fragment_hrefs_witness :
    GoodResolver wResolver ∧
      startsWithL (getAttribute [("href", "#top".toList)] "href") "#".toList = true ∧
      getAttributeN (postProcessContent wResolver defaultConfig
          (.elem "a" [("href", "#top".toList)] [])) "href" = "#top".toList := by
  have hR : GoodResolver wResolver := by
    refine ⟨rfl, fun ref => ⟨?_, ?_, rfl⟩⟩
    · exact (by decide : ¬ ("https://cixtor.com/x".toList : GoStr) = [])
    · exact (by decide :
        startsWithL "https://cixtor.com/x".toList "javascript:".toList = false)
  refine ⟨hR, by decide, ?_⟩
  exact ((c10_fragment_hrefs wResolver defaultConfig [("href", "#top".toList)] [] hR).1
    (by decide)).2

/-! ## String lemmas for post-processing idempotence -/

theorem goFieldsAux_good : ∀ (l acc : GoStr), (∀ c ∈ acc, wsT c = false) →
    ∀ w ∈ goFieldsAux acc l, w ≠ [] ∧ ∀ c ∈ w, wsT c = false
  | [], acc, hacc, w, hw => by
      simp only [goFieldsAux] at hw
      split_ifs at hw with he
      · simp at hw
      · simp only [List.mem_singleton] at hw
        subst hw
        refine ⟨fun hr => he ?_, fun c hc => hacc c (List.mem_reverse.mp hc)⟩
        simp [List.isEmpty_iff, ← List.reverse_eq_nil_iff.mp hr]
  | c :: rest, acc, hacc, w, hw => by
      simp only [goFieldsAux] at hw
      split_ifs at hw with h1 h2
      · exact goFieldsAux_good rest [] (by simp) w hw
      · rcases List.mem_cons.mp hw with hw | hw
        · subst hw
          refine ⟨fun hr => h2 ?_, fun d hd => hacc d (List.mem_reverse.mp hd)⟩
          simp [List.isEmpty_iff, ← List.reverse_eq_nil_iff.mp hr]
        · exact goFieldsAux_good rest [] (by simp) w hw
      · refine goFieldsAux_good rest (c :: acc) ?_ w hw
        intro d hd
        rcases List.mem_cons.mp hd with hd | hd
        · subst hd
          simpa using h1
        · exact hacc d hd

theorem goFields_good (l : GoStr) : ∀ w ∈ goFields l, w ≠ [] ∧ ∀ c ∈ w, wsT c = false :=
  goFieldsAux_good l [] (by simp)

/-- Well-shaped word lists: as produced by goFields. -/
def GoodWords (ws : List GoStr) : Prop := ∀ w ∈ ws, w ≠ [] ∧ ∀ c ∈ w, wsT c = false

theorem joinSpace_ne_nil : ∀ (ws : List GoStr), GoodWords ws → ws ≠ [] → joinSpace ws ≠ []
  | [w], h, _ => by
      simpa [joinSpace] using (h w (by simp)).1
  | w :: r :: rr, h, _ => by
      have hw := (h w (by simp)).1
      cases w with
      | nil => exact absurd rfl hw
      | cons c t => simp [joinSpace]

theorem head?_joinSpace : ∀ (w : GoStr) (rest : List GoStr), w ≠ [] →
    (joinSpace (w :: rest)).head? = w.head?
  | w, [], _ => rfl
  | w, r :: rr, hw => by
      simp only [joinSpace]
      exact List.head?_append_of_ne_nil w hw

theorem getLast?_joinSpace : ∀ (ws : List GoStr) (w : GoStr), GoodWords ws → ws ≠ [] →
    ws.getLast? = some w → (joinSpace ws).getLast? = w.getLast?
  | [v], w, _, _, hlast => by
      simp at hlast
      subst hlast
      rfl
  | v :: r :: rr, w, h, _, hlast => by
      have hjr : joinSpace (r :: rr) ≠ [] :=
        joinSpace_ne_nil (r :: rr) (fun u hu => h u (List.mem_cons_of_mem v hu)) (by simp)
      have : (v :: r :: rr).getLast? = (r :: rr).getLast? := by
        rw [List.getLast?_cons_cons]
      rw [this] at hlast
      calc (joinSpace (v :: r :: rr)).getLast?
          = (v ++ ' ' :: joinSpace (r :: rr)).getLast? := rfl
        _ = (' ' :: joinSpace (r :: rr)).getLast? := List.getLast?_append_cons v ' ' _
        _ = ([' '] ++ joinSpace (r :: rr)).getLast? := rfl
        _ = (joinSpace (r :: rr)).getLast? := List.getLast?_append_of_ne_nil [' '] hjr
        _ = w.getLast? :=
            getLast?_joinSpace (r :: rr) w (fun u hu => h u (List.mem_cons_of_mem v hu))
              (by simp) hlast

theorem trim_fixed_of_ends (l : GoStr) (c d : Char) (hh : l.head? = some c)
    (hwc : wsT c = false) (hl : l.getLast? = some d) (hwd : wsT d = false) :
    goTrimSpace l = l := by
  have h1 : trimLeftT l = l := by
    cases l with
    | nil => rfl
    | cons x t =>
        simp only [List.head?_cons, Option.some.injEq] at hh
        subst hh
        simp [trimLeftT, List.dropWhile_cons, hwc]
  have h2 : trimRightT l = l := by
    unfold trimRightT
    have hr : l.reverse.head? = some d := by
      rw [List.head?_reverse]
      exact hl
    cases hrev : l.reverse with
    | nil => simp [hrev] at hr
    | cons x t =>
        rw [hrev] at hr
        simp only [List.head?_cons, Option.some.injEq] at hr
        subst hr
        rw [List.dropWhile_cons, hwd]
        simp only [Bool.false_eq_true, if_false]
        rw [← hrev, List.reverse_reverse]
  unfold goTrimSpace
  rw [h1, h2]

/-- No two adjacent regexp-whitespace characters. -/
def noDblWs : GoStr → Prop
  | [] => True
  | [_] => True
  | c :: d :: rest => ¬ (wsR c = true ∧ wsR d = true) ∧ noDblWs (d :: rest)

theorem collapseAux_fixed : ∀ l : GoStr,
    (noDblWs l → collapseAux .clear l = l) ∧
      (∀ p, wsR p = true → (∀ c, l.head? = some c → wsR c = false) → noDblWs l →
        collapseAux (.pend p) l = p :: l)
  | [] => ⟨fun _ => rfl, fun p _ _ _ => rfl⟩
  | [c] => by
      refine ⟨fun _ => ?_, fun p hp hhead _ => ?_⟩
      · by_cases hc : wsR c
        · simp [collapseAux, hc]
        · simp [collapseAux, hc]
      · have hc : wsR c = false := hhead c rfl
        simp [collapseAux, hc]
  | c :: d :: rest => by
      obtain ⟨ih1, ih2⟩ := collapseAux_fixed (d :: rest)
      refine ⟨fun hnd => ?_, fun p hp hhead hnd => ?_⟩
      · obtain ⟨hcd, hnd2⟩ := hnd
        by_cases hc : wsR c
        · have hd : wsR d = false := by
            by_cases hd : wsR d
            · exact absurd ⟨hc, hd⟩ hcd
            · simpa using hd
          rw [show collapseAux .clear (c :: d :: rest) = collapseAux (.pend c) (d :: rest) by
            simp [collapseAux, hc]]
          refine ih2 c hc (fun e he => ?_) hnd2
          simp only [List.head?_cons, Option.some.injEq] at he
          rw [← he]
          exact hd
        · rw [show collapseAux .clear (c :: d :: rest) = c :: collapseAux .clear (d :: rest) by
            simp [collapseAux, hc]]
          rw [ih1 hnd2]
      · have hc : wsR c = false := hhead c rfl
        rw [show collapseAux (.pend p) (c :: d :: rest) =
          p :: c :: collapseAux .clear (d :: rest) by simp [collapseAux, hc]]
        rw [ih1 hnd.2]

theorem collapse_fixed (l : GoStr) (h : noDblWs l) : collapse l = l :=
  (collapseAux_fixed l).1 h

theorem wsR_wsT (c : Char) (h : wsR c = true) : wsT c = true := by
  simp [wsT, h]

theorem noDblWs_append (w l : GoStr) (hw : ∀ c ∈ w, wsT c = false) (hl : noDblWs l) :
    noDblWs (w ++ l) := by
  induction w with
  | nil => simpa
  | cons c t ih =>
      have hc : wsT c = false := hw c (by simp)
      have hcR : wsR c = false := by
        cases hR : wsR c
        · rfl
        · simp [wsR_wsT c hR] at hc
      have ht : noDblWs (t ++ l) := ih (fun d hd => hw d (List.mem_cons_of_mem c hd))
      cases hte : t ++ l with
      | nil => simp [List.cons_append, hte, noDblWs]
      | cons e r =>
          simp only [List.cons_append, hte]
          exact ⟨fun hcd => by simp [hcR] at hcd, hte ▸ ht⟩

theorem noDblWs_joinSpace : ∀ ws : List GoStr, GoodWords ws → noDblWs (joinSpace ws)
  | [], _ => trivial
  | [w], h => by
      simpa [joinSpace] using noDblWs_append w [] (fun c hc => (h w (by simp)).2 c hc) trivial
  | w :: r :: rr, h => by
      have hrr : GoodWords (r :: rr) := fun u hu => h u (List.mem_cons_of_mem w hu)
      have hj : noDblWs (joinSpace (r :: rr)) := noDblWs_joinSpace (r :: rr) hrr
      have hr1 : r ≠ [] := (hrr r (by simp)).1
      have hsep : noDblWs (' ' :: joinSpace (r :: rr)) := by
        cases hje : joinSpace (r :: rr) with
        | nil => exact trivial
        | cons e t =>
            have hhead : (joinSpace (r :: rr)).head? = r.head? := head?_joinSpace r rr hr1
            rw [hje] at hhead
            have he : e ∈ r := by
              cases r with
              | nil => exact absurd rfl hr1
              | cons x xr =>
                  simp only [List.head?_cons, Option.some.injEq] at hhead
                  subst hhead
                  simp
            have heT : wsT e = false := (hrr r (by simp)).2 e he
            have heR : wsR e = false := by
              cases hR : wsR e
              · rfl
              · simp [wsR_wsT e hR] at heT
            exact ⟨fun hcd => by simp [heR] at hcd, hje ▸ hj⟩
      simpa [joinSpace] using
        noDblWs_append w (' ' :: joinSpace (r :: rr))
          (fun c hc => (h w (by simp)).2 c hc) hsep

theorem goFieldsAux_word : ∀ (w acc rest : GoStr), (∀ c ∈ w, wsT c = false) →
    goFieldsAux acc (w ++ rest) = goFieldsAux (w.reverse ++ acc) rest
  | [], acc, rest, _ => by simp
  | c :: t, acc, rest, hw => by
      have hc : wsT c = false := hw c (by simp)
      rw [List.cons_append]
      rw [show goFieldsAux acc (c :: (t ++ rest)) = goFieldsAux (c :: acc) (t ++ rest) by
        simp [goFieldsAux, hc]]
      rw [goFieldsAux_word t (c :: acc) rest (fun d hd => hw d (List.mem_cons_of_mem c hd))]
      simp

theorem goFields_joinSpace : ∀ ws : List GoStr, GoodWords ws → goFields (joinSpace ws) = ws
  | [], _ => rfl
  | [w], h => by
      have hw := h w (by simp)
      unfold goFields joinSpace
      rw [show (w : GoStr) = w ++ [] by simp, goFieldsAux_word w [] [] (fun c hc => hw.2 c hc)]
      simp only [goFieldsAux]
      rw [if_neg]
      · simp
      · simp [List.isEmpty_iff, hw.1]
  | w :: r :: rr, h => by
      have hw := h w (by simp)
      have hrr : GoodWords (r :: rr) := fun u hu => h u (List.mem_cons_of_mem w hu)
      unfold goFields
      rw [show joinSpace (w :: r :: rr) = w ++ ' ' :: joinSpace (r :: rr) from rfl]
      rw [goFieldsAux_word w [] _ (fun c hc => hw.2 c hc)]
      rw [show goFieldsAux (w.reverse ++ []) (' ' :: joinSpace (r :: rr)) =
          w.reverse.reverse :: goFieldsAux [] (joinSpace (r :: rr)) by
        simp [goFieldsAux, List.isEmpty_iff, hw.1, (by decide : wsT ' ' = true)]]
      rw [List.reverse_reverse]
      exact congrArg (w :: ·) (goFields_joinSpace (r :: rr) hrr)

theorem getLast?_mem_list {α : Type} (l : List α) (v : α) (h : l.getLast? = some v) :
    v ∈ l := by
  rcases List.mem_getLast?_eq_getLast (Option.mem_def.mpr h) with ⟨hne, he⟩
  rw [he]
  exact List.getLast_mem hne

theorem trim_joinSpace (ws : List GoStr) (h : GoodWords ws) :
    goTrimSpace (joinSpace ws) = joinSpace ws := by
  cases ws with
  | nil => rfl
  | cons w rest =>
      have hw := h w (by simp)
      obtain ⟨c, hc⟩ : ∃ c, (joinSpace (w :: rest)).head? = some c := by
        rw [head?_joinSpace w rest hw.1]
        cases w with
        | nil => exact absurd rfl hw.1
        | cons x t => exact ⟨x, rfl⟩
      have hcw : wsT c = false := by
        rw [head?_joinSpace w rest hw.1] at hc
        refine hw.2 c ?_
        cases w with
        | nil => exact absurd rfl hw.1
        | cons x t =>
            simp only [List.head?_cons, Option.some.injEq] at hc
            subst hc
            simp
      obtain ⟨v, hv⟩ : ∃ v, (w :: rest).getLast? = some v := by
        cases hgl : (w :: rest).getLast? with
        | none => simp [List.getLast?_eq_none_iff] at hgl
        | some v => exact ⟨v, rfl⟩
      have hvmem : v ∈ w :: rest := getLast?_mem_list _ v hv
      have hvgood := h v hvmem
      obtain ⟨d, hd⟩ : ∃ d, (joinSpace (w :: rest)).getLast? = some d := by
        rw [getLast?_joinSpace (w :: rest) v h (by simp) hv]
        cases hvg : v.getLast? with
        | none => simp [List.getLast?_eq_none_iff] at hvg; exact absurd hvg hvgood.1
        | some d => exact ⟨d, rfl⟩
      have hdw : wsT d = false := by
        rw [getLast?_joinSpace (w :: rest) v h (by simp) hv] at hd
        exact hvgood.2 d (getLast?_mem_list _ d hd)
      exact trim_fixed_of_ends _ c d hc hcw hd hdw

theorem collapse_joinSpace (ws : List GoStr) (h : GoodWords ws) :
    collapse (joinSpace ws) = joinSpace ws :=
  collapse_fixed _ (noDblWs_joinSpace ws h)

/-! ## Tree lemmas for post-processing idempotence -/

mutual
theorem textContent_cls (keep : List GoStr) :
    ∀ n : HNode, textContentL (cleanClassesN keep n) = textContentL n
  | .elem t a cs => by
      simp only [cleanClassesN]
      split_ifs <;> simp only [textContentL] <;> exact textContent_clsL keep cs
  | .text s => rfl
  | .comment s => rfl

theorem textContent_clsL (keep : List GoStr) :
    ∀ l : List HNode, textContentLs (cleanClassesL keep l) = textContentLs l
  | [] => rfl
  | n :: rest => by
      simp only [cleanClassesL, textContentLs]
      rw [textContent_cls keep n, textContent_clsL keep rest]
end

mutual
theorem textContent_clear :
    ∀ n : HNode, textContentL (clearReadAttrN n) = textContentL n
  | .elem t a cs => by
      simp only [clearReadAttrN, textContentL]
      exact textContent_clearL cs
  | .text s => rfl
  | .comment s => rfl

theorem textContent_clearL :
    ∀ l : List HNode, textContentLs (clearReadAttrL l) = textContentLs l
  | [] => rfl
  | n :: rest => by
      simp only [clearReadAttrL, textContentLs]
      rw [textContent_clear n, textContent_clearL rest]
end

mutual
theorem fix_idem (R : UResolver) (hR : GoodResolver R) :
    ∀ n : HNode, fixNode R (fixNode R n) = fixNode R n
  | .elem t a cs => by
      by_cases ht : t = "a"
      · subst ht
        by_cases h1 : getAttribute a "href" = []
        · have e1 : fixNode R (.elem "a" a cs) = .elem "a" a (fixList R cs) := by
            simp [fixNode, h1]
          rw [e1]
          simp [fixNode, h1, fixL_idem R hR cs]
        · by_cases h2 : startsWithL (getAttribute a "href") "javascript:".toList = true
          · have h2n : startsWithL (getAttribute a "href")
                ['j', 'a', 'v', 'a', 's', 'c', 'r', 'i', 'p', 't', ':'] = true := by
              simpa using h2
            have e1 : fixNode R (.elem "a" a cs) = .text (textContentLs cs) := by
              simp [fixNode, h1, h2n]
            rw [e1]
            simp [fixNode]
          · have hA := toAbs_ne_nil R hR _ h1
            have h2n : startsWithL (getAttribute a "href")
                ['j', 'a', 'v', 'a', 's', 'c', 'r', 'i', 'p', 't', ':'] = false := by
              simpa using h2
            have e1 : fixNode R (.elem "a" a cs) =
                .elem "a" (setAttribute a "href" (toAbsoluteURI R (getAttribute a "href")))
                  (fixList R cs) := by
              simp [fixNode, h1, h2n, hA]
            rw [e1]
            have hget : getAttribute
                (setAttribute a "href" (toAbsoluteURI R (getAttribute a "href"))) "href" =
                toAbsoluteURI R (getAttribute a "href") :=
              getAttribute_setAttribute_self a "href" _
            have hjs2 : startsWithL (toAbsoluteURI R (getAttribute a "href"))
                ['j', 'a', 'v', 'a', 's', 'c', 'r', 'i', 'p', 't', ':'] = false := by
              have := toAbs_no_js R hR (getAttribute a "href") (by simpa using h2)
              simpa using this
            simp [fixNode, hget, hA, hjs2, toAbs_fixed R hR,
              setAttribute_setAttribute_self, fixL_idem R hR cs]
      · by_cases ht2 : t = "img"
        · subst ht2
          by_cases h1 : getAttribute a "src" = []
          · have e1 : fixNode R (.elem "img" a cs) = .elem "img" a (fixList R cs) := by
              simp [fixNode, h1]
            rw [e1]
            simp [fixNode, h1, fixL_idem R hR cs]
          · have hA := toAbs_ne_nil R hR _ h1
            have e1 : fixNode R (.elem "img" a cs) =
                .elem "img" (setAttribute a "src" (toAbsoluteURI R (getAttribute a "src")))
                  (fixList R cs) := by
              simp [fixNode, h1, hA]
            rw [e1]
            have hget : getAttribute
                (setAttribute a "src" (toAbsoluteURI R (getAttribute a "src"))) "src" =
                toAbsoluteURI R (getAttribute a "src") :=
              getAttribute_setAttribute_self a "src" _
            simp [fixNode, hget, hA, toAbs_fixed R hR,
              setAttribute_setAttribute_self, fixL_idem R hR cs]
        · have e1 : fixNode R (.elem t a cs) = .elem t a (fixList R cs) := by
            simp [fixNode, ht, ht2]
          rw [e1]
          simp [fixNode, ht, ht2, fixL_idem R hR cs]
  | .text s => rfl
  | .comment s => rfl

theorem fixL_idem (R : UResolver) (hR : GoodResolver R) :
    ∀ l : List HNode, fixList R (fixList R l) = fixList R l
  | [] => rfl
  | n :: rest => by
      simp only [fixList]
      rw [fix_idem R hR n, fixL_idem R hR rest]
end

/-! ## Attribute-level lemmas for the three post-processing passes -/

theorem cleanClassesN_elem (keep : List GoStr) (t : String) (a : List (String × GoStr))
    (cs : List HNode) :
    cleanClassesN keep (.elem t a cs) = .elem t (clsAttrs keep a) (cleanClassesL keep cs) := rfl

theorem clearReadAttrN_elem (t : String) (a : List (String × GoStr)) (cs : List HNode) :
    clearReadAttrN (.elem t a cs) = .elem t (clearAttrs a) (clearReadAttrL cs) := rfl

theorem getAttribute_clearAttrs_ne (a : List (String × GoStr)) (k : String)
    (h1 : ¬ "data-readability-score" = k) (h2 : ¬ "data-readability-table" = k) :
    getAttribute (clearAttrs a) k = getAttribute a k := by
  simp only [clearAttrs]
  rw [getAttribute_removeAttribute_ne _ k _ h2, getAttribute_removeAttribute_ne _ k _ h1]

theorem clearAttrs_setAttribute (a : List (String × GoStr)) (k : String) (v : GoStr)
    (h1 : ¬ k = "data-readability-score") (h2 : ¬ k = "data-readability-table") :
    clearAttrs (setAttribute a k v) = setAttribute (clearAttrs a) k v := by
  simp only [clearAttrs]
  rw [← setAttribute_removeAttribute_comm _ k _ v h1,
    ← setAttribute_removeAttribute_comm _ k _ v h2]

theorem clearAttrs_removeAttribute (a : List (String × GoStr)) (k : String) :
    clearAttrs (removeAttribute a k) = removeAttribute (clearAttrs a) k := by
  simp only [clearAttrs]
  rw [removeAttribute_comm a k "data-readability-score",
    removeAttribute_comm (removeAttribute a "data-readability-score") k
      "data-readability-table"]

theorem clearAttrs_idem (a : List (String × GoStr)) (h : keysUnique a = true) :
    clearAttrs (clearAttrs a) = clearAttrs a := by
  have hS : hasAttribute (clearAttrs a) "data-readability-score" = false := by
    simp only [clearAttrs]
    rw [hasAttribute_removeAttribute_ne _ _ _ (by decide)]
    exact hasAttribute_removeAttribute_self a _ h
  have hT : hasAttribute (clearAttrs a) "data-readability-table" = false := by
    simp only [clearAttrs]
    exact hasAttribute_removeAttribute_self _ _ (keysUnique_removeAttribute a _ h)
  show removeAttribute (removeAttribute (clearAttrs a) "data-readability-score")
    "data-readability-table" = clearAttrs a
  rw [removeAttribute_of_not_has _ _ hS, removeAttribute_of_not_has _ _ hT]

theorem getAttribute_clsAttrs_ne (keep : List GoStr) (a : List (String × GoStr)) (k : String)
    (h : ¬ "class" = k) : getAttribute (clsAttrs keep a) k = getAttribute a k := by
  simp only [clsAttrs]
  split_ifs
  · exact getAttribute_removeAttribute_ne a k "class" h
  · exact getAttribute_setAttribute_ne a k "class" _ h

theorem clsAttrs_setAttribute (keep : List GoStr) (a : List (String × GoStr)) (k : String)
    (v : GoStr) (hk : ¬ k = "class") (hp : hasAttribute a k = true) :
    clsAttrs keep (setAttribute a k v) = setAttribute (clsAttrs keep a) k v := by
  have hcl : getAttribute (setAttribute a k v) "class" = getAttribute a "class" :=
    getAttribute_setAttribute_ne a "class" k v hk
  simp only [clsAttrs, hcl]
  by_cases hemp : ((goFields (collapse (goTrimSpace (getAttribute a "class")))).filter
      (fun w => keep.contains w)).isEmpty = true
  · rw [if_pos hemp, if_pos hemp]
    exact (setAttribute_removeAttribute_comm a k "class" v hk).symm
  · rw [if_neg hemp, if_neg hemp]
    exact setAttribute_comm a k "class" v _ hk (Or.inl hp)

theorem clsAttrs_removeAttribute (keep : List GoStr) (a : List (String × GoStr)) (k : String)
    (hk : ¬ k = "class") :
    clsAttrs keep (removeAttribute a k) = removeAttribute (clsAttrs keep a) k := by
  have hcl : getAttribute (removeAttribute a k) "class" = getAttribute a "class" :=
    getAttribute_removeAttribute_ne a "class" k hk
  simp only [clsAttrs, hcl]
  by_cases hemp : ((goFields (collapse (goTrimSpace (getAttribute a "class")))).filter
      (fun w => keep.contains w)).isEmpty = true
  · rw [if_pos hemp, if_pos hemp]
    exact removeAttribute_comm a k "class"
  · rw [if_neg hemp, if_neg hemp]
    exact setAttribute_removeAttribute_comm a "class" k _ (fun hx => hk hx.symm)

theorem clsAttrs_clearAttrs (keep : List GoStr) (a : List (String × GoStr)) :
    clsAttrs keep (clearAttrs a) = clearAttrs (clsAttrs keep a) := by
  show clsAttrs keep (removeAttribute (removeAttribute a "data-readability-score")
    "data-readability-table") = _
  rw [clsAttrs_removeAttribute keep _ _ (by decide),
    clsAttrs_removeAttribute keep _ _ (by decide)]
  rfl

theorem clsAttrs_idem (keep : List GoStr) (a : List (String × GoStr))
    (h : keysUnique a = true) : clsAttrs keep (clsAttrs keep a) = clsAttrs keep a := by
  by_cases hemp : ((goFields (collapse (goTrimSpace (getAttribute a "class")))).filter
      (fun w => keep.contains w)).isEmpty = true
  · have e1 : clsAttrs keep a = removeAttribute a "class" := by
      simp only [clsAttrs]
      rw [if_pos hemp]
    rw [e1]
    have hget : getAttribute (removeAttribute a "class") "class" = [] :=
      getAttribute_removeAttribute_self a "class" h
    have c2 : ((goFields (collapse (goTrimSpace
        (getAttribute (removeAttribute a "class") "class")))).filter
        (fun w => keep.contains w)).isEmpty = true := by
      have hz : goFields (collapse (goTrimSpace ([] : GoStr))) = [] := rfl
      rw [hget, hz]
      rfl
    simp only [clsAttrs]
    rw [if_pos c2]
    exact removeAttribute_of_not_has _ "class" (hasAttribute_removeAttribute_self a "class" h)
  · have hG : GoodWords ((goFields (collapse (goTrimSpace (getAttribute a "class")))).filter
        (fun w => keep.contains w)) := by
      intro w hw
      exact goFields_good _ w (List.mem_of_mem_filter hw)
    have e1 : clsAttrs keep a = setAttribute a "class"
        (joinSpace ((goFields (collapse (goTrimSpace (getAttribute a "class")))).filter
          (fun w => keep.contains w))) := by
      simp only [clsAttrs]
      rw [if_neg hemp]
    rw [e1]
    have hget : getAttribute (setAttribute a "class"
        (joinSpace ((goFields (collapse (goTrimSpace (getAttribute a "class")))).filter
          (fun w => keep.contains w)))) "class" =
        joinSpace ((goFields (collapse (goTrimSpace (getAttribute a "class")))).filter
          (fun w => keep.contains w)) :=
      getAttribute_setAttribute_self a "class" _
    have hpipe : collapse (goTrimSpace
        (joinSpace ((goFields (collapse (goTrimSpace (getAttribute a "class")))).filter
          (fun w => keep.contains w)))) =
        joinSpace ((goFields (collapse (goTrimSpace (getAttribute a "class")))).filter
          (fun w => keep.contains w)) := by
      rw [trim_joinSpace _ hG, collapse_joinSpace _ hG]
    have hfields := goFields_joinSpace _ hG
    have hfilter : (((goFields (collapse (goTrimSpace (getAttribute a "class")))).filter
          (fun w => keep.contains w)).filter (fun w => keep.contains w)) =
        ((goFields (collapse (goTrimSpace (getAttribute a "class")))).filter
          (fun w => keep.contains w)) :=
      List.filter_eq_self.mpr (fun w hw => List.of_mem_filter hw)
    simp only [clsAttrs]
    rw [hget, hpipe, hfields, hfilter, if_neg hemp, setAttribute_setAttribute_self]

mutual
theorem cls_idem (keep : List GoStr) :
    ∀ n : HNode, wellAttrs n = true →
      cleanClassesN keep (cleanClassesN keep n) = cleanClassesN keep n
  | .elem t a cs, h => by
      simp only [wellAttrs, Bool.and_eq_true] at h
      rw [cleanClassesN_elem, cleanClassesN_elem, clsAttrs_idem keep a h.1,
        clsL_idem keep cs h.2]
  | .text s, _ => rfl
  | .comment s, _ => rfl

theorem clsL_idem (keep : List GoStr) :
    ∀ l : List HNode, wellAttrsL l = true →
      cleanClassesL keep (cleanClassesL keep l) = cleanClassesL keep l
  | [], _ => rfl
  | n :: rest, h => by
      simp only [wellAttrsL, Bool.and_eq_true] at h
      simp only [cleanClassesL]
      rw [cls_idem keep n h.1, clsL_idem keep rest h.2]
end

mutual
theorem clear_idem : ∀ n : HNode, wellAttrs n = true →
    clearReadAttrN (clearReadAttrN n) = clearReadAttrN n
  | .elem t a cs, h => by
      simp only [wellAttrs, Bool.and_eq_true] at h
      rw [clearReadAttrN_elem, clearReadAttrN_elem, clearAttrs_idem a h.1,
        clearL_idem cs h.2]
  | .text s, _ => rfl
  | .comment s, _ => rfl

theorem clearL_idem : ∀ l : List HNode, wellAttrsL l = true →
    clearReadAttrL (clearReadAttrL l) = clearReadAttrL l
  | [], _ => rfl
  | n :: rest, h => by
      simp only [wellAttrsL, Bool.and_eq_true] at h
      simp only [clearReadAttrL]
      rw [clear_idem n h.1, clearL_idem rest h.2]
end

mutual
theorem fix_clear_comm (R : UResolver) (hR : GoodResolver R) :
    ∀ n : HNode, fixNode R (clearReadAttrN n) = clearReadAttrN (fixNode R n)
  | .elem t a cs => by
      rw [clearReadAttrN_elem]
      by_cases ht : t = "a"
      · subst ht
        have hh : getAttribute (clearAttrs a) "href" = getAttribute a "href" :=
          getAttribute_clearAttrs_ne a "href" (by decide) (by decide)
        by_cases h1 : getAttribute a "href" = []
        · have eL : fixNode R (.elem "a" (clearAttrs a) (clearReadAttrL cs)) =
              .elem "a" (clearAttrs a) (fixList R (clearReadAttrL cs)) := by
            simp [fixNode, hh, h1]
          have eR : fixNode R (.elem "a" a cs) = .elem "a" a (fixList R cs) := by
            simp [fixNode, h1]
          rw [eL, eR, clearReadAttrN_elem, fixL_clearL_comm R hR cs]
        · by_cases h2 : startsWithL (getAttribute a "href") "javascript:".toList = true
          · have h2n : startsWithL (getAttribute a "href")
                ['j', 'a', 'v', 'a', 's', 'c', 'r', 'i', 'p', 't', ':'] = true := by
              simpa using h2
            have eL : fixNode R (.elem "a" (clearAttrs a) (clearReadAttrL cs)) =
                .text (textContentLs (clearReadAttrL cs)) := by
              simp [fixNode, hh, h1, h2n]
            have eR : fixNode R (.elem "a" a cs) = .text (textContentLs cs) := by
              simp [fixNode, h1, h2n]
            rw [eL, eR, textContent_clearL cs]
            rfl
          · have h2n : startsWithL (getAttribute a "href")
                ['j', 'a', 'v', 'a', 's', 'c', 'r', 'i', 'p', 't', ':'] = false := by
              simpa using h2
            have hA := toAbs_ne_nil R hR _ h1
            have eL : fixNode R (.elem "a" (clearAttrs a) (clearReadAttrL cs)) =
                .elem "a" (setAttribute (clearAttrs a) "href"
                  (toAbsoluteURI R (getAttribute a "href")))
                  (fixList R (clearReadAttrL cs)) := by
              simp [fixNode, hh, h1, h2n, hA]
            have eR : fixNode R (.elem "a" a cs) =
                .elem "a" (setAttribute a "href" (toAbsoluteURI R (getAttribute a "href")))
                  (fixList R cs) := by
              simp [fixNode, h1, h2n, hA]
            rw [eL, eR, clearReadAttrN_elem,
              clearAttrs_setAttribute a "href" _ (by decide) (by decide),
              fixL_clearL_comm R hR cs]
      · by_cases ht2 : t = "img"
        · subst ht2
          have hh : getAttribute (clearAttrs a) "src" = getAttribute a "src" :=
            getAttribute_clearAttrs_ne a "src" (by decide) (by decide)
          by_cases h1 : getAttribute a "src" = []
          · have eL : fixNode R (.elem "img" (clearAttrs a) (clearReadAttrL cs)) =
                .elem "img" (clearAttrs a) (fixList R (clearReadAttrL cs)) := by
              simp [fixNode, hh, h1]
            have eR : fixNode R (.elem "img" a cs) = .elem "img" a (fixList R cs) := by
              simp [fixNode, h1]
            rw [eL, eR, clearReadAttrN_elem, fixL_clearL_comm R hR cs]
          · have hA := toAbs_ne_nil R hR _ h1
            have eL : fixNode R (.elem "img" (clearAttrs a) (clearReadAttrL cs)) =
                .elem "img" (setAttribute (clearAttrs a) "src"
                  (toAbsoluteURI R (getAttribute a "src")))
                  (fixList R (clearReadAttrL cs)) := by
              simp [fixNode, hh, h1, hA]
            have eR : fixNode R (.elem "img" a cs) =
                .elem "img" (setAttribute a "src" (toAbsoluteURI R (getAttribute a "src")))
                  (fixList R cs) := by
              simp [fixNode, h1, hA]
            rw [eL, eR, clearReadAttrN_elem,
              clearAttrs_setAttribute a "src" _ (by decide) (by decide),
              fixL_clearL_comm R hR cs]
        · have eL : fixNode R (.elem t (clearAttrs a) (clearReadAttrL cs)) =
              .elem t (clearAttrs a) (fixList R (clearReadAttrL cs)) := by
            simp [fixNode, ht, ht2]
          have eR : fixNode R (.elem t a cs) = .elem t a (fixList R cs) := by
            simp [fixNode, ht, ht2]
          rw [eL, eR, clearReadAttrN_elem, fixL_clearL_comm R hR cs]
  | .text s => rfl
  | .comment s => rfl

theorem fixL_clearL_comm (R : UResolver) (hR : GoodResolver R) :
    ∀ l : List HNode, fixList R (clearReadAttrL l) = clearReadAttrL (fixList R l)
  | [] => rfl
  | n :: rest => by
      simp only [clearReadAttrL, fixList]
      rw [fix_clear_comm R hR n, fixL_clearL_comm R hR rest]
end

mutual
theorem fix_cls_comm (R : UResolver) (hR : GoodResolver R) (keep : List GoStr) :
    ∀ n : HNode, fixNode R (cleanClassesN keep n) = cleanClassesN keep (fixNode R n)
  | .elem t a cs => by
      rw [cleanClassesN_elem]
      by_cases ht : t = "a"
      · subst ht
        have hh : getAttribute (clsAttrs keep a) "href" = getAttribute a "href" :=
          getAttribute_clsAttrs_ne keep a "href" (by decide)
        by_cases h1 : getAttribute a "href" = []
        · have eL : fixNode R (.elem "a" (clsAttrs keep a) (cleanClassesL keep cs)) =
              .elem "a" (clsAttrs keep a) (fixList R (cleanClassesL keep cs)) := by
            simp [fixNode, hh, h1]
          have eR : fixNode R (.elem "a" a cs) = .elem "a" a (fixList R cs) := by
            simp [fixNode, h1]
          rw [eL, eR, cleanClassesN_elem, fixL_clsL_comm R hR keep cs]
        · by_cases h2 : startsWithL (getAttribute a "href") "javascript:".toList = true
          · have h2n : startsWithL (getAttribute a "href")
                ['j', 'a', 'v', 'a', 's', 'c', 'r', 'i', 'p', 't', ':'] = true := by
              simpa using h2
            have eL : fixNode R (.elem "a" (clsAttrs keep a) (cleanClassesL keep cs)) =
                .text (textContentLs (cleanClassesL keep cs)) := by
              simp [fixNode, hh, h1, h2n]
            have eR : fixNode R (.elem "a" a cs) = .text (textContentLs cs) := by
              simp [fixNode, h1, h2n]
            rw [eL, eR, textContent_clsL keep cs]
            rfl
          · have h2n : startsWithL (getAttribute a "href")
                ['j', 'a', 'v', 'a', 's', 'c', 'r', 'i', 'p', 't', ':'] = false := by
              simpa using h2
            have hA := toAbs_ne_nil R hR _ h1
            have hp : hasAttribute a "href" = true := getAttribute_ne_nil_has a "href" h1
            have eL : fixNode R (.elem "a" (clsAttrs keep a) (cleanClassesL keep cs)) =
                .elem "a" (setAttribute (clsAttrs keep a) "href"
                  (toAbsoluteURI R (getAttribute a "href")))
                  (fixList R (cleanClassesL keep cs)) := by
              simp [fixNode, hh, h1, h2n, hA]
            have eR : fixNode R (.elem "a" a cs) =
                .elem "a" (setAttribute a "href" (toAbsoluteURI R (getAttribute a "href")))
                  (fixList R cs) := by
              simp [fixNode, h1, h2n, hA]
            rw [eL, eR, cleanClassesN_elem,
              clsAttrs_setAttribute keep a "href" _ (by decide) hp,
              fixL_clsL_comm R hR keep cs]
      · by_cases ht2 : t = "img"
        · subst ht2
          have hh : getAttribute (clsAttrs keep a) "src" = getAttribute a "src" :=
            getAttribute_clsAttrs_ne keep a "src" (by decide)
          by_cases h1 : getAttribute a "src" = []
          · have eL : fixNode R (.elem "img" (clsAttrs keep a) (cleanClassesL keep cs)) =
                .elem "img" (clsAttrs keep a) (fixList R (cleanClassesL keep cs)) := by
              simp [fixNode, hh, h1]
            have eR : fixNode R (.elem "img" a cs) = .elem "img" a (fixList R cs) := by
              simp [fixNode, h1]
            rw [eL, eR, cleanClassesN_elem, fixL_clsL_comm R hR keep cs]
          · have hA := toAbs_ne_nil R hR _ h1
            have hp : hasAttribute a "src" = true := getAttribute_ne_nil_has a "src" h1
            have eL : fixNode R (.elem "img" (clsAttrs keep a) (cleanClassesL keep cs)) =
                .elem "img" (setAttribute (clsAttrs keep a) "src"
                  (toAbsoluteURI R (getAttribute a "src")))
                  (fixList R (cleanClassesL keep cs)) := by
              simp [fixNode, hh, h1, hA]
            have eR : fixNode R (.elem "img" a cs) =
                .elem "img" (setAttribute a "src" (toAbsoluteURI R (getAttribute a "src")))
                  (fixList R cs) := by
              simp [fixNode, h1, hA]
            rw [eL, eR, cleanClassesN_elem,
              clsAttrs_setAttribute keep a "src" _ (by decide) hp,
              fixL_clsL_comm R hR keep cs]
        · have eL : fixNode R (.elem t (clsAttrs keep a) (cleanClassesL keep cs)) =
              .elem t (clsAttrs keep a) (fixList R (cleanClassesL keep cs)) := by
            simp [fixNode, ht, ht2]
          have eR : fixNode R (.elem t a cs) = .elem t a (fixList R cs) := by
            simp [fixNode, ht, ht2]
          rw [eL, eR, cleanClassesN_elem, fixL_clsL_comm R hR keep cs]
  | .text s => rfl
  | .comment s => rfl

theorem fixL_clsL_comm (R : UResolver) (hR : GoodResolver R) (keep : List GoStr) :
    ∀ l : List HNode, fixList R (cleanClassesL keep l) = cleanClassesL keep (fixList R l)
  | [] => rfl
  | n :: rest => by
      simp only [cleanClassesL, fixList]
      rw [fix_cls_comm R hR keep n, fixL_clsL_comm R hR keep rest]
end

mutual
theorem cls_clear_comm (keep : List GoStr) :
    ∀ n : HNode, cleanClassesN keep (clearReadAttrN n) = clearReadAttrN (cleanClassesN keep n)
  | .elem t a cs => by
      rw [clearReadAttrN_elem, cleanClassesN_elem, cleanClassesN_elem, clearReadAttrN_elem,
        clsAttrs_clearAttrs keep a, clsL_clearL_comm keep cs]
  | .text s => rfl
  | .comment s => rfl

theorem clsL_clearL_comm (keep : List GoStr) :
    ∀ l : List HNode, cleanClassesL keep (clearReadAttrL l) = clearReadAttrL (cleanClassesL keep l)
  | [] => rfl
  | n :: rest => by
      simp only [cleanClassesL, clearReadAttrL]
      rw [cls_clear_comm keep n, clsL_clearL_comm keep rest]
end

/-- C9, amended: postProcessContent is idempotent whenever the
resolver never emits a javascript-prefixed URI.  Applying the full
post-processing pass (fixRelativeURIs, then cleanClasses, then
clearReadabilityAttr) a second time to its own output changes nothing,
for any article tree whose attribute lists are duplicate-free (as the
HTML parser guarantees) and any resolver whose outputs are nonempty
fixed points of resolution not carrying the javascript scheme.  The
unamended claim is false: net/url lowercases schemes, so a mixed-case
Javascript href is rewritten by the first pass and deleted by the
second (c9_counterexample). -/
theorem c9_postprocess_idempotent (R : UResolver) (cfg : Config) (t : HNode)
    (hR : GoodResolver R) (hW : wellAttrs t = true) :
    postProcessContent R cfg (postProcessContent R cfg t) = postProcessContent R cfg t := by
  simp only [postProcessContent]
  rw [fix_clear_comm R hR, fix_cls_comm R hR cfg.classesToPreserve, fix_idem R hR t,
    cls_clear_comm cfg.classesToPreserve,
    cls_idem cfg.classesToPreserve (fixNode R t) (fix_preserves_wellAttrs R t hW),
    clear_idem (cleanClassesN cfg.classesToPreserve (fixNode R t))
      (cls_preserves_wellAttrs cfg.classesToPreserve (fixNode R t)
        (fix_preserves_wellAttrs R t hW))]

theorem c9_postprocess_idempotent_witness :
    GoodResolver wResolver ∧
      wellAttrs (.elem "div" [("class", "x y".toList), ("data-readability-score", "7".toList)]
        [.elem "a" [("href", "q".toList)] [.text "hi".toList]]) = true ∧
      postProcessContent wResolver defaultConfig (postProcessContent wResolver defaultConfig
          (.elem "div" [("class", "x y".toList), ("data-readability-score", "7".toList)]
            [.elem "a" [("href", "q".toList)] [.text "hi".toList]])) =
        postProcessContent wResolver defaultConfig
          (.elem "div" [("class", "x y".toList), ("data-readability-score", "7".toList)]
            [.elem "a" [("href", "q".toList)] [.text "hi".toList]]) := by
  have hR : GoodResolver wResolver := by
    refine ⟨rfl, fun ref => ⟨?_, ?_, rfl⟩⟩
    · exact (by decide : ¬ ("https://cixtor.com/x".toList : GoStr) = [])
    · exact (by decide :
        startsWithL "https://cixtor.com/x".toList "javascript:".toList = false)
  exact ⟨hR, by decide,
    c9_postprocess_idempotent wResolver defaultConfig _ hR (by decide)⟩

/-! ## Length of collapsed text and superadditivity of the trimmed measure -/

theorem mu_cons_notws (d : Char) (rest : GoStr) (h : wsR d = false) :
    mu (d :: rest) = 1 + mu rest := by
  cases rest with
  | nil => rfl
  | cons r t => simp [mu, h]

theorem mu_le_cons (c : Char) (l : GoStr) : mu l ≤ mu (c :: l) := by
  cases l with
  | nil => simp [mu]
  | cons d t =>
      simp only [mu]
      exact Nat.le_add_left _ _

theorem mu_le_append (p v : GoStr) : mu v ≤ mu (p ++ v) := by
  induction p with
  | nil => simp
  | cons c t ih => exact le_trans ih (mu_le_cons c (t ++ v))

theorem mu_append_left : ∀ (u : GoStr) (c : Char) (v : GoStr), wsR c = false →
    mu (u ++ c :: v) = mu (u ++ [c]) + mu v
  | [], c, v, h => by
      simp only [List.nil_append]
      rw [mu_cons_notws c v h]
      rfl
  | [a], c, v, h => by
      simp only [List.cons_append, List.nil_append]
      simp only [mu]
      rw [mu_cons_notws c v h]
      omega
  | a :: e :: u, c, v, h => by
      have ih := mu_append_left (e :: u) c v h
      simp only [List.cons_append] at ih ⊢
      simp only [mu]
      omega

mutual
theorem collapse_len_clear : ∀ l : GoStr, (collapseAux .clear l).length = mu l
  | [] => rfl
  | c :: rest => by
      by_cases h : wsR c = true
      · have e : collapseAux .clear (c :: rest) = collapseAux (.pend c) rest := by
          simp [collapseAux, h]
        rw [e, collapse_len_pend c rest h]
      · have e : collapseAux .clear (c :: rest) = c :: collapseAux .clear rest := by
          simp [collapseAux, h]
        have hf : wsR c = false := by simpa using h
        rw [e]
        simp only [List.length_cons]
        rw [collapse_len_clear rest, mu_cons_notws c rest hf]
        omega

theorem collapse_len_pend : ∀ (p : Char) (l : GoStr), wsR p = true →
    (collapseAux (.pend p) l).length = mu (p :: l)
  | p, [], hp => rfl
  | p, c :: rest, hp => by
      by_cases h : wsR c = true
      · have e : collapseAux (.pend p) (c :: rest) = collapseAux .run rest := by
          simp [collapseAux, h]
        rw [e, collapse_len_run c rest h]
        simp [mu, hp, h]
      · have e : collapseAux (.pend p) (c :: rest) = p :: c :: collapseAux .clear rest := by
          simp [collapseAux, h]
        have hf : wsR c = false := by simpa using h
        rw [e]
        simp only [List.length_cons]
        rw [collapse_len_clear rest]
        have hmu : mu (p :: c :: rest) = 1 + (1 + mu rest) := by
          simp [mu, hf, mu_cons_notws c rest hf]
        rw [hmu]
        omega

theorem collapse_len_run : ∀ (c0 : Char) (l : GoStr), wsR c0 = true →
    (collapseAux .run l).length = mu (c0 :: l)
  | c0, [], h0 => rfl
  | c0, c :: rest, h0 => by
      by_cases h : wsR c = true
      · have e : collapseAux .run (c :: rest) = collapseAux .run rest := by
          simp [collapseAux, h]
        rw [e, collapse_len_run c rest h]
        simp [mu, h0, h]
      · have e : collapseAux .run (c :: rest) = ' ' :: c :: collapseAux .clear rest := by
          simp [collapseAux, h]
        have hf : wsR c = false := by simpa using h
        rw [e]
        simp only [List.length_cons]
        rw [collapse_len_clear rest]
        have hmu : mu (c0 :: c :: rest) = 1 + (1 + mu rest) := by
          simp [mu, hf, mu_cons_notws c rest hf]
        rw [hmu]
        omega
end

theorem collapse_len (l : GoStr) : (collapse l).length = mu l := collapse_len_clear l

theorem innerLen_eq_mu (n : HNode) :
    getInnerTextLen n = mu (goTrimSpace (textContentL n)) := by
  simp only [getInnerTextLen, getInnerTextNorm]
  exact collapse_len _

theorem trimLeftT_append (x y : GoStr) :
    trimLeftT (x ++ y) = if (trimLeftT x).isEmpty then trimLeftT y else trimLeftT x ++ y := by
  simp only [trimLeftT]
  exact List.dropWhile_append

theorem trimRightT_append (x y : GoStr) :
    trimRightT (x ++ y) = if (trimRightT y).isEmpty then trimRightT x else x ++ trimRightT y := by
  by_cases h : y.reverse.dropWhile wsT = []
  · have h1 : trimRightT y = [] := by simp [trimRightT, h]
    rw [if_pos (by simp [h1])]
    simp only [trimRightT, List.reverse_append]
    rw [List.dropWhile_append, if_pos (by simp [h])]
  · have h1 : ¬ (trimRightT y).isEmpty = true := by
      simp only [trimRightT, List.isEmpty_iff, List.reverse_eq_nil_iff]
      exact h
    rw [if_neg h1]
    simp only [trimRightT, List.reverse_append]
    rw [List.dropWhile_append, if_neg (by simp [h]), List.reverse_append,
      List.reverse_reverse]

theorem trimLeftT_nil_iff (y : GoStr) : trimLeftT y = [] ↔ ∀ c ∈ y, wsT c = true := by
  simp [trimLeftT, List.dropWhile_eq_nil_iff]

theorem trimRightT_nil_iff (y : GoStr) : trimRightT y = [] ↔ ∀ c ∈ y, wsT c = true := by
  simp [trimRightT, List.dropWhile_eq_nil_iff]

theorem dropWhile_head_false (p : Char → Bool) :
    ∀ (l : List Char) (c : Char) (r : List Char), l.dropWhile p = c :: r → p c = false
  | [], c, r, h => by simp [List.dropWhile] at h
  | a :: t, c, r, h => by
      rw [List.dropWhile_cons] at h
      by_cases ha : p a = true
      · rw [if_pos ha] at h
        exact dropWhile_head_false p t c r h
      · rw [if_neg ha] at h
        cases h
        simpa using ha

theorem trimLeftT_head_false (l : GoStr) (c : Char) (r : GoStr)
    (h : trimLeftT l = c :: r) : wsT c = false :=
  dropWhile_head_false wsT l c r h

theorem trimRightT_last_false (l : GoStr) (c : Char) (u : GoStr)
    (h : trimRightT l = u ++ [c]) : wsT c = false := by
  have h2 : l.reverse.dropWhile wsT = c :: u.reverse := by
    have h3 := congrArg List.reverse h
    simpa [trimRightT] using h3
  exact dropWhile_head_false wsT l.reverse c u.reverse h2

theorem takeWhile_trimLeftT (l : GoStr) : l.takeWhile wsT ++ trimLeftT l = l :=
  List.takeWhile_append_dropWhile wsT l

theorem trimRightT_decomp (l : GoStr) :
    l = trimRightT l ++ (l.reverse.takeWhile wsT).reverse := by
  conv_lhs => rw [← List.reverse_reverse l, ← List.takeWhile_append_dropWhile wsT l.reverse]
  rw [List.reverse_append]
  rfl

theorem goTrimSpace_ne_nil (l : GoStr) (h : trimLeftT l ≠ []) : goTrimSpace l ≠ [] := by
  intro h0
  have hall : ∀ c ∈ trimLeftT l, wsT c = true := (trimRightT_nil_iff _).mp h0
  cases hh : trimLeftT l with
  | nil => exact h hh
  | cons c r =>
      have hc1 := trimLeftT_head_false l c r hh
      have hc2 := hall c (by rw [hh]; simp)
      simp [hc1] at hc2

theorem mu_trim_superadd (x y : GoStr) :
    mu (goTrimSpace x) + mu (goTrimSpace y) ≤ mu (goTrimSpace (x ++ y)) := by
  by_cases hx : trimLeftT x = []
  · have hmx : goTrimSpace x = [] := by simp [goTrimSpace, hx, trimRightT]
    have hxy : goTrimSpace (x ++ y) = goTrimSpace y := by
      simp only [goTrimSpace]
      rw [trimLeftT_append, if_pos (by simp [hx])]
    rw [hmx, hxy]
    simp [mu]
  · by_cases hy : trimRightT y = []
    · have hmy : goTrimSpace y = [] := by
        have hyL : trimLeftT y = [] := by
          rw [trimLeftT_nil_iff]
          exact (trimRightT_nil_iff y).mp hy
        simp [goTrimSpace, hyL, trimRightT]
      have hxy : goTrimSpace (x ++ y) = goTrimSpace x := by
        simp only [goTrimSpace]
        rw [trimLeftT_append, if_neg (by simp [hx]), trimRightT_append,
          if_pos (by simp [hy])]
      rw [hmy, hxy]
      simp [mu]
    · have hxy : goTrimSpace (x ++ y) = trimLeftT x ++ trimRightT y := by
        simp only [goTrimSpace]
        rw [trimLeftT_append, if_neg (by simp [hx]), trimRightT_append,
          if_neg (by simp [hy])]
      rw [hxy]
      have hcx_ne : goTrimSpace x ≠ [] := goTrimSpace_ne_nil x hx
      obtain ⟨u, c, hu⟩ : ∃ u c, goTrimSpace x = u ++ [c] :=
        ⟨(goTrimSpace x).dropLast, (goTrimSpace x).getLast hcx_ne,
          ((goTrimSpace x).dropLast_append_getLast hcx_ne).symm⟩
      have hcws : wsT c = false :=
        trimRightT_last_false (trimLeftT x) c u (by simpa [goTrimSpace] using hu)
      have hcR : wsR c = false := by
        cases hR : wsR c
        · rfl
        · exact absurd (wsR_wsT c hR) (by simp [hcws])
      have hyLne : trimLeftT y ≠ [] := by
        intro h0
        exact hy ((trimRightT_nil_iff y).mpr ((trimLeftT_nil_iff y).mp h0))
      have hyTne : goTrimSpace y ≠ [] := goTrimSpace_ne_nil y hyLne
      have hyL : mu (goTrimSpace y) ≤ mu (trimRightT y) := by
        have hstep : trimRightT y = y.takeWhile wsT ++ trimRightT (trimLeftT y) := by
          conv_lhs => rw [← takeWhile_trimLeftT y]
          rw [trimRightT_append, if_neg (by simp [List.isEmpty_iff]; exact hyTne)]
        rw [hstep]
        exact mu_le_append _ _
      have hdec2 : trimLeftT x =
          goTrimSpace x ++ ((trimLeftT x).reverse.takeWhile wsT).reverse :=
        trimRightT_decomp (trimLeftT x)
      conv_rhs => rw [hdec2]
      rw [List.append_assoc, hu, List.append_assoc, List.singleton_append,
        mu_append_left u c (((trimLeftT x).reverse.takeWhile wsT).reverse ++ trimRightT y)
          hcR]
      have hmid : mu (goTrimSpace y) ≤
          mu (((trimLeftT x).reverse.takeWhile wsT).reverse ++ trimRightT y) :=
        le_trans hyL (mu_le_append _ _)
      omega

mutual
theorem gebtn_anchorFree : ∀ n : HNode, anchorFree n = true →
    getElementsByTagName n "a" = []
  | .elem t a cs, h => by
      simp only [anchorFree, Bool.and_eq_true, ne_eq, decide_eq_true_eq] at h
      simp only [getElementsByTagName]
      rw [if_neg (by simp [h.1]), gebtnL_anchorFree cs h.2]
      rfl
  | .text s, _ => rfl
  | .comment s, _ => rfl

theorem gebtnL_anchorFree : ∀ l : List HNode, anchorFreeL l = true →
    getElementsByTagNameL l "a" = []
  | [], _ => rfl
  | n :: rest, h => by
      simp only [anchorFreeL, Bool.and_eq_true] at h
      simp only [getElementsByTagNameL]
      rw [gebtn_anchorFree n h.1, gebtnL_anchorFree rest h.2]
      rfl
end

mutual
theorem anchorSum : ∀ n : HNode, noNestedAnchor n = true →
    ((getElementsByTagName n "a").map getInnerTextLen).sum ≤ getInnerTextLen n
  | .elem t a cs, h => by
      simp only [noNestedAnchor] at h
      by_cases ht : t = "a"
      · rw [if_pos ht] at h
        subst ht
        have hg : getElementsByTagNameL cs "a" = [] := gebtnL_anchorFree cs h
        simp [getElementsByTagName, hg]
      · rw [if_neg ht] at h
        have hsub := anchorSumL cs h
        simp only [getElementsByTagName]
        rw [if_neg (by simp [ht])]
        simp only [List.nil_append]
        refine le_trans hsub (le_of_eq ?_)
        rw [innerLen_eq_mu]
        rfl
  | .text s, _ => by simp [getElementsByTagName]
  | .comment s, _ => by simp [getElementsByTagName]

theorem anchorSumL : ∀ l : List HNode, noNestedAnchorL l = true →
    ((getElementsByTagNameL l "a").map getInnerTextLen).sum ≤
      mu (goTrimSpace (textContentLs l))
  | [], _ => by simp [getElementsByTagNameL, mu]
  | n :: rest, h => by
      simp only [noNestedAnchorL, Bool.and_eq_true] at h
      have h2 := anchorSumL rest h.2
      have h1m : ((getElementsByTagName n "a").map getInnerTextLen).sum ≤
          mu (goTrimSpace (textContentL n)) := by
        rw [← innerLen_eq_mu]
        exact anchorSum n h.1
      simp only [getElementsByTagNameL, List.map_append, List.sum_append]
      have hsup := mu_trim_superadd (textContentL n) (textContentLs rest)
      have htc : textContentLs (n :: rest) = textContentL n ++ textContentLs rest := rfl
      rw [htc]
      omega
end

/-- C8: the link density computed by getLinkDensity lies in [0, 1]: it
is 0 when the element's normalized inner text is empty and otherwise
the anchor-text sum divided by the total text length, which cannot
exceed 1 because the anchors of an anchor-nesting-free tree (the shape
the HTML5 parser produces) carry disjoint pieces of the element's
text. -/
theorem c8_link_density_bounds (e : HNode) (h : noNestedAnchor e = true) :
    0 ≤ getLinkDensity e ∧ getLinkDensity e ≤ 1 := by
  have hsum : ((getElementsByTagName e "a").map getInnerTextLen).sum ≤ getInnerTextLen e :=
    anchorSum e h
  simp only [getLinkDensity]
  by_cases h0 : getInnerTextLen e = 0
  · rw [if_pos h0]
    norm_num
  · rw [if_neg h0]
    constructor
    · positivity
    · rw [div_le_one (by exact_mod_cast Nat.pos_of_ne_zero h0)]
      exact_mod_cast hsum

theorem c8_link_density_bounds_witness :
    noNestedAnchor (.elem "div" [] [.elem "a" [("href", "x".toList)] [.text "hi".toList],
        .text " more words here".toList]) = true ∧
      (0 ≤ getLinkDensity (.elem "div" [] [.elem "a" [("href", "x".toList)]
          [.text "hi".toList], .text " more words here".toList]) ∧
        getLinkDensity (.elem "div" [] [.elem "a" [("href", "x".toList)]
          [.text "hi".toList], .text " more words here".toList]) ≤ 1) :=
  ⟨by decide, c8_link_density_bounds _ (by decide)⟩

/-- C9 counterexample: postProcessContent is not idempotent in
general.  With a resolver behaving as net/url does (url.Parse
lowercases schemes), an anchor whose href carries the mixed-case
scheme Javascript is rewritten by the first pass to a lowercase
javascript: URI, and the second pass then replaces the whole anchor
with a text node. -/
theorem c9_counterexample :
    cxResolver.resolveRef "Javascript:void(0)".toList = "javascript:void(0)".toList ∧
      postProcessContent cxResolver defaultConfig (postProcessContent cxResolver defaultConfig
          (.elem "a" [("href", "Javascript:void(0)".toList)] [])) ≠
        postProcessContent cxResolver defaultConfig
          (.elem "a" [("href", "Javascript:void(0)".toList)] []) := by
  refine ⟨rfl, ?_⟩
  intro h
  have e2 : postProcessContent cxResolver defaultConfig (postProcessContent cxResolver
      defaultConfig (.elem "a" [("href", "Javascript:void(0)".toList)] [])) =
      HNode.text [] := rfl
  have e1 : postProcessContent cxResolver defaultConfig
      (.elem "a" [("href", "Javascript:void(0)".toList)] []) =
      HNode.elem "a" [("href", "javascript:void(0)".toList)] [] := rfl
  rw [e2, e1] at h
  exact HNode.noConfusion h
